import Mathlib

/-!
Verification of the chess-dashboard aggregation engine
(`src/scripts/preprocess.js` and the filter logic of `index.js`).

The JavaScript is embedded shallowly:

* JS strings are Lean `String`s; the character-level operations
  (`split(/[:|]/)[0]`, `trim()`, `replace(/#\d+$/, '')`, `toLowerCase()`)
  are modelled on `List Char`.
* JS numbers are exact: ratings are `Int`, derived averages and
  percentages are `ℚ`.  `Math.floor`/`Math.ceil` are `Int.floor`/`Int.ceil`
  (for integers, `Int.fdiv`).  The one place where `Math.min`/`Math.max`
  of an empty spread yields `Infinity`/`-Infinity` is modelled with an
  explicit sum type (`JsNum`) and, inside the aggregation functions, with
  an `Option` returned by `qMinMax` (`none` is the empty case, in which
  the JS band loop runs zero times).
* JS objects used as string-keyed dictionaries preserve insertion order,
  so they are modelled as association lists updated in place
  (`updAssoc`); `Object.entries` is the list itself.
* `Array.prototype.sort` is stable; it is modelled by the stable
  `List.insertionSort` on the comparator's preorder.
* In-place mutation (the `forEach` of `estimateTimePerGame` writing a
  field on each record) is modelled by explicit state passing: the
  function returns the post-state of the records of its input array.
-/

/- Batteries marks the `Rat` arithmetic irreducible; re-enable
unfolding so that concrete aggregation results can be evaluated by
`decide`. -/
set_option allowUnsafeReducibility true in
attribute [semireducible] Rat.inv Rat.add Rat.mul Rat.sub Rat.ofScientific

/-! ### Characters and strings -/

/-- Whitespace for the purposes of `String.prototype.trim`. -/
def isWsChar (c : Char) : Bool :=
  c == ' ' || c == '\t' || c == '\n' || c == '\r'

/-- `s.split(/[:|]/)[0]`: the prefix of the string before the first
`':'` or `'|'`. -/
def splitHead (l : List Char) : List Char :=
  l.takeWhile fun c => !(c == ':' || c == '|')

/-- `s.trim()`: drop leading and trailing whitespace. -/
def trimL (l : List Char) : List Char :=
  ((l.dropWhile isWsChar).reverse.dropWhile isWsChar).reverse

/-- `s.replace(/#\d+$/, '')`: remove a trailing `'#'` followed by one or
more digits. -/
def stripMarker (l : List Char) : List Char :=
  match l.reverse.takeWhile Char.isDigit,
        l.reverse.drop (l.reverse.takeWhile Char.isDigit).length with
  | _ :: _, '#' :: rest => rest.reverse
  | _, _ => l

/-- The opening-name normalization used by `getTopNOpenings`,
`getTopNOpeningsWinners`, `getTopNOpeningsWithResults`,
`getWinRateByOpeningAcrossEloRanges`, `getOpeningStats` and
`getOpeningUsageByElo`:
`d.opening_name.split(/[:|]/)[0].trim().replace(/#\d+$/, '')`. -/
def cleanNameTR (s : String) : String :=
  String.mk (stripMarker (trimL (splitHead s.toList)))

/-- The opening-name normalization used by `getAllOpeningNames`:
`d.opening_name.split(/[:|]/)[0].replace(/#\d+$/, '').trim()`
(replace before trim). -/
def cleanNameRT (s : String) : String :=
  String.mk (trimL (stripMarker (splitHead s.toList)))

/-! ### Data model

One `GameRecord` per played game, with the fields the engine reads.
The CSV loader may deliver `rated` either as a boolean or as a string,
so that field gets its own sum type. -/

/-- The duck-typed `rated` field: a boolean, or a string such as
`"true"`/`"FALSE"`. -/
inductive RatedVal where
  | bool (b : Bool)
  | str (s : String)
deriving DecidableEq, Repr

/-- One chess-game record as consumed by the aggregation engine. -/
structure GameRecord where
  opening_name : String
  winner : String
  victory_status : String
  rated : RatedVal
  white_rating : Int
  black_rating : Int
  turns : Int
  opening_ply : Int
  increment_code : Option String
  created_at : Option Int
  last_move_at : Option Int
  time_control : Option String
  estimated_time_control : Option String
deriving DecidableEq, Repr

/-! ### Insertion-ordered dictionaries

JS objects with string keys enumerate their keys in insertion order, and
every aggregation function builds such an object with the pattern
`if (!acc[k]) acc[k] = init; ...mutate acc[k]...`.  `updAssoc` is that
pattern on an association list: apply `f` to the value at `k`, inserting
`f init` at the end when `k` is new.  `Object.entries` is then the list
itself. -/

def updAssoc {κ α : Type} [DecidableEq κ] (k : κ) (init : α) (f : α → α) :
    List (κ × α) → List (κ × α)
  | [] => [(k, f init)]
  | (k₂, v) :: rest =>
      if k₂ = k then (k₂, f v) :: rest else (k₂, v) :: updAssoc k init f rest

/-- First-match association-list lookup (JS property access `acc[k]`). -/
def lookupA {κ α : Type} [DecidableEq κ] (k : κ) : List (κ × α) → Option α
  | [] => none
  | (k₂, v) :: rest => if k₂ = k then some v else lookupA k rest

/-! ### Sorting

`Array.prototype.sort` is stable, so it is modelled by the stable
`List.insertionSort` on the preorder decided by the JS comparator. -/

/-- The comparator `(a, b) => b[1] - a[1]` (descending by count). -/
def countGE (a b : String × Nat) : Prop := b.2 ≤ a.2

instance : DecidableRel countGE := fun a b => inferInstanceAs (Decidable (b.2 ≤ a.2))

instance : IsTotal (String × Nat) countGE :=
  ⟨fun a b => by unfold countGE; exact Nat.le_total b.2 a.2⟩

instance : IsTrans (String × Nat) countGE :=
  ⟨fun _ _ _ h₁ h₂ => Nat.le_trans h₂ h₁⟩

/-! ### `getTopNOpenings` -/

/-- Occurrence counts of the normalized opening families, in first-seen
order (the `reduce` of `getTopNOpenings`, also the first loop of
`getWinRateByOpeningAcrossEloRanges` and of `getOpeningUsageByElo`). -/
def accCounts (data : List GameRecord) : List (String × Nat) :=
  data.foldl (fun acc d => updAssoc (cleanNameTR d.opening_name) 0 (· + 1) acc) []

/-- `getTopNOpenings(data, n)`: the `n` most frequent opening families
with their counts. -/
def getTopNOpenings (data : List GameRecord) (n : Nat) : List (String × Nat) :=
  (List.insertionSort countGE (accCounts data)).take n

/-! ### `getTopNOpeningsWinners` -/

/-- Per-opening winner tallies. -/
structure WinStats where
  total : Nat
  whiteWins : Nat
  blackWins : Nat
  draws : Nat
deriving DecidableEq, Repr

def zeroWin : WinStats := ⟨0, 0, 0, 0⟩

/-- One record's contribution: `total++` always, then three independent
`if`s on `d.winner`. -/
def bumpWin (winner : String) (s : WinStats) : WinStats :=
  { total := s.total + 1
    whiteWins := s.whiteWins + (if winner = "white" then 1 else 0)
    blackWins := s.blackWins + (if winner = "black" then 1 else 0)
    draws := s.draws + (if winner = "draw" then 1 else 0) }

/-- The accumulation `forEach` of `getTopNOpeningsWinners` (shared with
the per-band tallies of `getWinRateByOpeningAcrossEloRanges`). -/
def accWinStats (data : List GameRecord) : List (String × WinStats) :=
  data.foldl (fun acc d => updAssoc (cleanNameTR d.opening_name) zeroWin (bumpWin d.winner) acc) []

/-- An output row of `getTopNOpeningsWinners`. -/
structure WinPctEntry where
  name : String
  total : Nat
  whiteWinPct : ℚ
  blackWinPct : ℚ
  drawPct : ℚ
deriving DecidableEq, Repr

/-- The map step of `getTopNOpeningsWinners`: the divisions are
unguarded in the source (`(stats.whiteWins / stats.total) * 100`);
every accumulated bucket has `total ≥ 1`, so the zero case never
arises there. -/
def winnersEntry (p : String × WinStats) : WinPctEntry :=
  { name := p.1
    total := p.2.total
    whiteWinPct := (p.2.whiteWins : ℚ) / p.2.total * 100
    blackWinPct := (p.2.blackWins : ℚ) / p.2.total * 100
    drawPct := (p.2.draws : ℚ) / p.2.total * 100 }

/-- The comparator `(a, b) => b.total - a.total` on output rows. -/
def winDescTotal (a b : WinPctEntry) : Prop := b.total ≤ a.total

instance : DecidableRel winDescTotal := fun a b => inferInstanceAs (Decidable (b.total ≤ a.total))

instance : IsTotal WinPctEntry winDescTotal :=
  ⟨fun a b => by unfold winDescTotal; exact Nat.le_total b.total a.total⟩

instance : IsTrans WinPctEntry winDescTotal :=
  ⟨fun _ _ _ h₁ h₂ => Nat.le_trans h₂ h₁⟩

/-- `getTopNOpeningsWinners(data, n)`.  The `n` parameter is accepted
but never used by the source: no `slice` is applied. -/
def getTopNOpeningsWinners (data : List GameRecord) (n : Nat) : List WinPctEntry :=
  List.insertionSort winDescTotal ((accWinStats data).map winnersEntry)

/-! ### `getTopNOpeningsWithResults` -/

/-- Per-opening victory-status tallies. -/
structure ResultStats where
  total : Nat
  mate : Nat
  resign : Nat
  outoftime : Nat
  draw : Nat
deriving DecidableEq, Repr

def zeroResult : ResultStats := ⟨0, 0, 0, 0, 0⟩

/-- `total++`, then an `else if` chain on `d.victory_status`. -/
def bumpResult (vs : String) (s : ResultStats) : ResultStats :=
  let s := { s with total := s.total + 1 }
  if vs = "mate" then { s with mate := s.mate + 1 }
  else if vs = "resign" then { s with resign := s.resign + 1 }
  else if vs = "outoftime" then { s with outoftime := s.outoftime + 1 }
  else if vs = "draw" then { s with draw := s.draw + 1 }
  else s

def accResultStats (data : List GameRecord) : List (String × ResultStats) :=
  data.foldl (fun acc d => updAssoc (cleanNameTR d.opening_name) zeroResult (bumpResult d.victory_status) acc) []

/-- An output row of `getTopNOpeningsWithResults`. -/
structure ResultPctEntry where
  name : String
  total : Nat
  matePct : ℚ
  resignPct : ℚ
  outoftimePct : ℚ
  drawPct : ℚ
deriving DecidableEq, Repr

def resultsEntry (p : String × ResultStats) : ResultPctEntry :=
  { name := p.1
    total := p.2.total
    matePct := (p.2.mate : ℚ) / p.2.total * 100
    resignPct := (p.2.resign : ℚ) / p.2.total * 100
    outoftimePct := (p.2.outoftime : ℚ) / p.2.total * 100
    drawPct := (p.2.draw : ℚ) / p.2.total * 100 }

/-- The comparator `(a, b) => b.total - a.total` on result rows. -/
def resultDescTotal (a b : ResultPctEntry) : Prop := b.total ≤ a.total

instance : DecidableRel resultDescTotal := fun a b => inferInstanceAs (Decidable (b.total ≤ a.total))

instance : IsTotal ResultPctEntry resultDescTotal :=
  ⟨fun a b => by unfold resultDescTotal; exact Nat.le_total b.total a.total⟩

instance : IsTrans ResultPctEntry resultDescTotal :=
  ⟨fun _ _ _ h₁ h₂ => Nat.le_trans h₂ h₁⟩

/-- `getTopNOpeningsWithResults(data, n)`; like the winners variant, the
`n` parameter is never used. -/
def getTopNOpeningsWithResults (data : List GameRecord) (n : Nat) : List ResultPctEntry :=
  List.insertionSort resultDescTotal ((accResultStats data).map resultsEntry)

/-! ### `getWinRateByOpeningAcrossEloRanges` -/

/-- The per-game average of the two players' ratings,
`(d.white_rating + d.black_rating) / 2`. -/
def avgRating (d : GameRecord) : ℚ :=
  ((d.white_rating : ℚ) + (d.black_rating : ℚ)) / 2

/-- `Math.min(...xs)` and `Math.max(...xs)` over one spread list;
`none` is the empty spread, for which JS yields `Infinity` and
`-Infinity` respectively. -/
def qMinMax : List ℚ → Option (ℚ × ℚ)
  | [] => none
  | x :: xs => some (xs.foldl min x, xs.foldl max x)

/-- The band starts visited by `for (let elo = lo; elo < hi; elo += 100)`.
The callers only ever pass multiples of 100, so the loop runs
`(hi - lo) / 100` times (zero when `hi ≤ lo`). -/
def bandStarts (lo hi : Int) : List Int :=
  (List.range ((hi - lo) / 100).toNat).map fun (i : ℕ) => lo + 100 * (i : Int)

/-- The band label `` `${elo}-${elo + 99}` ``. -/
def rangeLabel (elo : Int) : String :=
  toString elo ++ "-" ++ toString (elo + 99)

/-- `stats.total ? (count / stats.total) * 100 : 0`. -/
def safePct (count tot : Nat) : ℚ :=
  if tot = 0 then 0 else (count : ℚ) / (tot : ℚ) * 100

/-- A returned `{range, openings}` element. -/
structure RangeEntry where
  range : String
  openings : List WinPctEntry
deriving DecidableEq, Repr

/-- The Boolean band-membership test
`averageRating >= elo && averageRating <= elo + 99`. -/
def inBand (elo : Int) (d : GameRecord) : Bool :=
  decide ((elo : ℚ) ≤ avgRating d ∧ avgRating d ≤ (elo : ℚ) + 99)

/-- The guarded percentage row emitted for one opening of one band:
`openings[name] || {total: 0, ...}` then
`stats.total ? ... : 0`. -/
def bandRow (stats : List (String × WinStats)) (name : String) : WinPctEntry :=
  let s := (lookupA name stats).getD zeroWin
  { name := name
    total := s.total
    whiteWinPct := safePct s.whiteWins s.total
    blackWinPct := safePct s.blackWins s.total
    drawPct := safePct s.draws s.total }

/-- One band of the result: tally the records whose average rating lies
in `[elo, elo + 99]`, then emit a row for every top opening (dense
grid). -/
def bandEntry (tops : List String) (rows : List GameRecord) (elo : Int) : RangeEntry :=
  { range := rangeLabel elo
    openings := tops.map (bandRow (accWinStats (rows.filter (inBand elo)))) }

/-- The openings ranked by descending popularity.  The source wraps the
sorted names in a `Set`, but the keys of `openingCounts` are already
distinct, so the `Set` enumerates exactly this list.  No `.slice(0, n)`
is applied: the whole ranking is kept. -/
def winRateTops (data : List GameRecord) : List String :=
  (List.insertionSort countGE (accCounts data)).map Prod.fst

/-- `data.filter(d => topOpenings.has(clean(d.opening_name)))`. -/
def winRateFiltered (data : List GameRecord) : List GameRecord :=
  data.filter fun d => (winRateTops data).contains (cleanNameTR d.opening_name)

/-- `getWinRateByOpeningAcrossEloRanges(data, n)`.  The `n` parameter is
unused by the source.  When the filtered set is empty,
`Math.min`/`Math.max` of the empty spread produce `Infinity`/`-Infinity`
and the band loop runs zero times, so the result is `[]`: that is the
`none` branch here. -/
def getWinRateByOpeningAcrossEloRanges (data : List GameRecord) (n : Nat) : List RangeEntry :=
  match qMinMax ((winRateFiltered data).map avgRating) with
  | none => []
  | some (lo, hi) =>
      (bandStarts (100 * ⌊lo / 100⌋) (100 * ⌈hi / 100⌉)).map
        (bandEntry (winRateTops data) (winRateFiltered data))

/-! ### `getOpeningStats` -/

/-- Per-opening tallies with turn and ply sums. -/
structure TurnStats where
  total : Nat
  totalTurns : Int
  totalPly : Int
  whiteWins : Nat
  blackWins : Nat
  draws : Nat
deriving DecidableEq, Repr

def zeroTurn : TurnStats := ⟨0, 0, 0, 0, 0, 0⟩

/-- One record's contribution in `getOpeningStats` (an `else if` chain
on the winner there). -/
def bumpTurn (d : GameRecord) (s : TurnStats) : TurnStats :=
  { total := s.total + 1
    totalTurns := s.totalTurns + d.turns
    totalPly := s.totalPly + d.opening_ply
    whiteWins := s.whiteWins + (if d.winner = "white" then 1 else 0)
    blackWins := s.blackWins + (if d.winner ≠ "white" ∧ d.winner = "black" then 1 else 0)
    draws := s.draws +
      (if d.winner ≠ "white" ∧ d.winner ≠ "black" ∧ d.winner = "draw" then 1 else 0) }

def accTurnStats (data : List GameRecord) : List (String × TurnStats) :=
  data.foldl (fun acc d => updAssoc (cleanNameTR d.opening_name) zeroTurn (bumpTurn d) acc) []

/-- An output row of `getOpeningStats` (note: no `total` field is
emitted). -/
structure OpeningStatsEntry where
  name : String
  averageTurns : ℚ
  averagePly : ℚ
  whiteWinPct : ℚ
  blackWinPct : ℚ
  drawPct : ℚ
deriving DecidableEq, Repr

/-- The map step of `getOpeningStats`; every division and average is
guarded by `stats.total ? ... : 0`. -/
def openingStatsEntry (p : String × TurnStats) : OpeningStatsEntry :=
  { name := p.1
    averageTurns := if p.2.total = 0 then 0 else (p.2.totalTurns : ℚ) / (p.2.total : ℚ)
    averagePly := if p.2.total = 0 then 0 else (p.2.totalPly : ℚ) / (p.2.total : ℚ)
    whiteWinPct := safePct p.2.whiteWins p.2.total
    blackWinPct := safePct p.2.blackWins p.2.total
    drawPct := safePct p.2.draws p.2.total }

/-- `getOpeningStats(data)`.  The trailing
`.sort((a, b) => b.total - a.total)` compares a `total` property that
the mapped objects do not have: the comparator evaluates to `NaN`,
which `Array.prototype.sort` treats as `0`, so the stable sort leaves
the order unchanged and the function is the plain map. -/
def getOpeningStats (data : List GameRecord) : List OpeningStatsEntry :=
  (accTurnStats data).map openingStatsEntry

/-! ### `getEloRange` -/

/-- A JS number as produced by `Math.min`/`Math.max`/`Math.floor`
pipelines: either finite or one of the two infinities. -/
inductive JsNum where
  | fin (q : ℚ)
  | posInf
  | negInf
deriving DecidableEq, Repr

/-- `Math.min(...xs)`: `Infinity` for the empty spread. -/
def jsMin (l : List ℚ) : JsNum :=
  match l with
  | [] => .posInf
  | x :: xs => .fin (xs.foldl min x)

/-- `Math.max(...xs)`: `-Infinity` for the empty spread. -/
def jsMax (l : List ℚ) : JsNum :=
  match l with
  | [] => .negInf
  | x :: xs => .fin (xs.foldl max x)

/-- `Math.floor(x / 100) * 100`; `Math.floor` fixes both infinities. -/
def jsFloorBand : JsNum → JsNum
  | .fin q => .fin (100 * ⌊q / 100⌋)
  | .posInf => .posInf
  | .negInf => .negInf

/-- `Math.ceil(x / 100) * 100`; `Math.ceil` fixes both infinities. -/
def jsCeilBand : JsNum → JsNum
  | .fin q => .fin (100 * ⌈q / 100⌉)
  | .posInf => .posInf
  | .negInf => .negInf

/-- `getEloRange(data)`: `{min, max}` over every individual rating.  On
an empty record set the `Math.min`/`Math.max` spreads are empty and the
function silently returns `{min: Infinity, max: -Infinity}`. -/
def getEloRange (data : List GameRecord) : JsNum × JsNum :=
  let elos := data.flatMap fun d => [(d.white_rating : ℚ), (d.black_rating : ℚ)]
  (jsFloorBand (jsMin elos), jsCeilBand (jsMax elos))

/-! ### `getAllOpeningNames` -/

/-- JS `Set` insertion order: keep the first occurrence of each
element. -/
def dedupFirst (l : List String) : List String :=
  l.foldl (fun acc s => if acc.contains s then acc else acc ++ [s]) []

/-- `getAllOpeningNames(data)`: distinct family names sorted with
`localeCompare` (modelled as code-point order). -/
def getAllOpeningNames (data : List GameRecord) : List String :=
  List.insertionSort (fun a b : String => a ≤ b)
    (dedupFirst (data.map fun d => cleanNameRT d.opening_name))

/-! ### `estimateTimePerGame` (`index.js`)

The source mutates: `data.forEach(d => { ... d.estimated_time_control =
category })`.  The embedding returns the post-state of the records of
the input array. -/

/-- The maximal leading digit run, as a number (`parseInt` semantics:
`none` is `NaN`). -/
def digitsPart (l : List Char) : Option Nat :=
  match l.takeWhile Char.isDigit with
  | [] => none
  | ds => some (ds.foldl (fun n c => 10 * n + (c.toNat - '0'.toNat)) 0)

/-- `parseInt(s)`: skip whitespace, optional sign, maximal digit
prefix; `none` models `NaN`. -/
def jsParseInt (s : String) : Option Int :=
  match s.toList.dropWhile isWsChar with
  | '-' :: rest => (digitsPart rest).map fun n => -(n : Int)
  | '+' :: rest => (digitsPart rest).map fun n => (n : Int)
  | l => (digitsPart l).map fun n => (n : Int)

/-- `s.split(sep)` for a one-character separator. -/
def splitOnC (sep : Char) : List Char → List (List Char)
  | [] => [[]]
  | c :: rest =>
      if c = sep then [] :: splitOnC sep rest
      else
        match splitOnC sep rest with
        | h :: t => (c :: h) :: t
        | [] => [[c]]

/-- The per-record body of `estimateTimePerGame`: classify
`initial * 60 + increment * turns` by fixed thresholds, writing the
category onto the record.  A `NaN` estimate (unparsable parts) fails
every `<` comparison and lands on `'Classique'`. -/
def estimateOne (d : GameRecord) : GameRecord :=
  match d.increment_code with
  | none => { d with estimated_time_control := some "Unknown" }
  | some ic =>
      if ic = "" ∨ ¬ ic.toList.contains '+' then
        { d with estimated_time_control := some "Unknown" }
      else
        let parts := splitOnC '+' ic.toList
        let initial := jsParseInt (String.mk (parts.headD []))
        let increment := (parts.drop 1).head?.bind fun p => jsParseInt (String.mk p)
        match initial, increment with
        | some i, some inc =>
            let t := i * 60 + inc * d.turns
            if t < 180 then { d with estimated_time_control := some "Bullet" }
            else if t < 480 then { d with estimated_time_control := some "Blitz" }
            else if t < 1500 then { d with estimated_time_control := some "Rapide" }
            else { d with estimated_time_control := some "Classique" }
        | _, _ => { d with estimated_time_control := some "Classique" }

/-- `estimateTimePerGame(data)`: the post-state of the input array
after the mutating `forEach`. -/
def estimateTimePerGame (data : List GameRecord) : List GameRecord :=
  data.map estimateOne

/-! ### The legacy `applyFilters` (revision with raw `rated`
comparison) -/

/-- ASCII lower-casing, the fragment of `toLowerCase` the data
exercises. -/
def lowerChar (c : Char) : Char :=
  if 'A' ≤ c ∧ c ≤ 'Z' then Char.ofNat (c.toNat + 32) else c

def lowerStr (s : String) : String :=
  String.mk (s.toList.map lowerChar)

/-- `hay.includes(needle)` on strings. -/
def strIncludes (hay needle : List Char) : Bool :=
  hay.tails.any fun t => needle.isPrefixOf t

/-- The module-level filter-state object of the legacy revision. -/
structure FilterState where
  opening : String
  gameType : String
  timeControl : String
  color : String
  search : String
deriving DecidableEq, Repr

/-- JS strict equality `d.rated === isRated` against a boolean: false
whenever `d.rated` is a string, whatever its contents. -/
def ratedStrictEq : RatedVal → Bool → Bool
  | .bool b, x => b == x
  | .str _, _ => false

/-- JS `a || b` on possibly-missing strings: the empty string is
falsy. -/
def jsOrStr (a b : Option String) : Option String :=
  match a with
  | some s => if s = "" then b else some s
  | none => b

/-- The legacy `applyFilters(data)` (the revision that compares the raw
`rated` value with `filterState.gameType === 'rated'`; its `color`
branch is an empty placeholder). -/
def applyFilters (fs : FilterState) (data : List GameRecord) : List GameRecord :=
  data.filter fun d =>
    (fs.opening == "all" || cleanNameTR d.opening_name == fs.opening) &&
    (fs.gameType == "all" || ratedStrictEq d.rated (fs.gameType == "rated")) &&
    (fs.timeControl == "all" ||
      jsOrStr d.time_control d.estimated_time_control == some fs.timeControl) &&
    (fs.search == "" ||
      strIncludes (lowerStr d.opening_name).toList (lowerStr fs.search).toList)

/-! ### `getOpeningUsageByElo` -/

/-- The boundary coercion of the duck-typed `rated` field:
`typeof d.rated === 'string' ? d.rated.toLowerCase() === 'true'
: !!d.rated`. -/
def ratedValue : RatedVal → Bool
  | .str s => lowerStr s == "true"
  | .bool b => b

/-- The rated/casual and time-control skip tests of the first loop of
`getOpeningUsageByElo` (`filterType`/`timeControl` are `null` when no
constraint applies). -/
def usagePass (filterType timeControl : Option String) (d : GameRecord) : Bool :=
  let rv := ratedValue d.rated
  let skip1 :=
    match filterType with
    | some ft => (ft == "rated" && !rv) || (ft == "casual" && rv)
    | none => false
  let skip2 :=
    match timeControl with
    | some tc => !(jsOrStr d.time_control d.estimated_time_control == some tc)
    | none => false
  !(skip1 || skip2)

/-- The records kept by the first loop of `getOpeningUsageByElo` (the
loop also precomputes `cleanedOpening`, recomputed here at use
sites). -/
def usageFilteredData (data : List GameRecord) (filterType timeControl : Option String) :
    List GameRecord :=
  data.filter (usagePass filterType timeControl)

/-- The comparator of the heatmap ranking:
`sortBy === 'name' ? a[0].localeCompare(b[0]) : b[1] - a[1]`
(`localeCompare` modelled as code-point order). -/
def usageOrder (sortBy : String) (a b : String × Nat) : Prop :=
  if sortBy = "name" then a.1 ≤ b.1 else b.2 ≤ a.2

instance : DecidableRel (usageOrder sortBy) := fun a b =>
  inferInstanceAs (Decidable (if sortBy = "name" then a.1 ≤ b.1 else b.2 ≤ a.2))

instance : IsTotal (String × Nat) (usageOrder sortBy) :=
  ⟨fun a b => by
    unfold usageOrder
    split
    · exact le_total a.1 b.1
    · exact Nat.le_total b.2 a.2⟩

instance : IsTrans (String × Nat) (usageOrder sortBy) :=
  ⟨fun a b c h₁ h₂ => by
    unfold usageOrder at *
    split at h₁ <;> rename_i hs
    · rw [if_pos hs] at h₂ ⊢; exact le_trans h₁ h₂
    · rw [if_neg hs] at h₂ ⊢; exact Nat.le_trans h₂ h₁⟩

/-- One heatmap accumulator cell. -/
structure HeatCellStats where
  count : Nat
  whiteCount : Nat
  blackCount : Nat
deriving DecidableEq, Repr

def zeroCell : HeatCellStats := ⟨0, 0, 0⟩

def bumpWhiteCell (c : HeatCellStats) : HeatCellStats :=
  ⟨c.count + 1, c.whiteCount + 1, c.blackCount⟩

def bumpBlackCell (c : HeatCellStats) : HeatCellStats :=
  ⟨c.count + 1, c.whiteCount, c.blackCount + 1⟩

/-- The two-level dictionary `grouped[opening][eloRange]`.  The band
keys are the integer band starts (the JS keys are their
`"start-(start+99)"` renderings, one per start). -/
abbrev Grouped := List (String × List (Int × HeatCellStats))

/-- Update (inserting zeroed cells on demand) of one cell of the
two-level dictionary. -/
def updCell (g : Grouped) (o : String) (r : Int) (f : HeatCellStats → HeatCellStats) : Grouped :=
  updAssoc o [] (fun row => updAssoc r zeroCell f row) g

/-- `Math.floor(d.white_rating / 100) * 100`. -/
def whiteBandOf (d : GameRecord) : Int := 100 * d.white_rating.fdiv 100

/-- `Math.floor(d.black_rating / 100) * 100`. -/
def blackBandOf (d : GameRecord) : Int := 100 * d.black_rating.fdiv 100

/-- `if (colorFilter === 'white' || colorFilter === 'both')` bump the
white-side cell. -/
def heatStepW (cf o : String) (wb : Int) (g : Grouped) : Grouped :=
  if cf = "white" ∨ cf = "both" then updCell g o wb bumpWhiteCell else g

/-- `if (colorFilter === 'black' || colorFilter === 'both')` bump the
black-side cell (after the white-side bump). -/
def heatStepB (cf o : String) (wb bb : Int) (g : Grouped) : Grouped :=
  if cf = "black" ∨ cf = "both" then updCell (heatStepW cf o wb g) o bb bumpBlackCell
  else heatStepW cf o wb g

/-- The body of the grouping loop: skip openings outside the ranking
(never the case in practice), make sure both cells exist, then bump the
white-side and/or black-side cell according to `colorFilter`. -/
def heatStep (cf : String) (tops : List String) (g : Grouped) (d : GameRecord) : Grouped :=
  if ¬ tops.contains (cleanNameTR d.opening_name) then g
  else
    heatStepB cf (cleanNameTR d.opening_name) (whiteBandOf d) (blackBandOf d)
      (updCell (updCell g (cleanNameTR d.opening_name) (whiteBandOf d) id)
        (cleanNameTR d.opening_name) (blackBandOf d) id)

/-- The `elos` array: both players' band starts of every record the
grouping loop does not skip. -/
def usageElos (tops : List String) (rows : List GameRecord) : List Int :=
  (rows.filter fun d => tops.contains (cleanNameTR d.opening_name)).flatMap
    fun d => [whiteBandOf d, blackBandOf d]

/-- `Math.min`/`Math.max` over a spread of integers; `none` is the
empty case. -/
def iMinMax : List Int → Option (Int × Int)
  | [] => none
  | x :: xs => some (xs.foldl min x, xs.foldl max x)

/-- `grouped[opening]?.[eloRange] || {count: 0, whiteCount: 0,
blackCount: 0}`. -/
def lookupCell (g : Grouped) (o : String) (r : Int) : HeatCellStats :=
  ((lookupA o g).bind (lookupA r)).getD zeroCell

/-- One emitted heatmap cell. -/
structure HeatCell where
  eloRange : String
  opening : String
  count : Nat
  whiteCount : Nat
  blackCount : Nat
  relativeCount : ℚ
deriving DecidableEq, Repr

/-- The emission loops: for every band, compute the band's total count
and push one cell per opening. -/
def heatCells (g : Grouped) (tops : List String) (starts : List Int) : List HeatCell :=
  starts.flatMap fun elo =>
    let totalCount := (tops.map fun o => (lookupCell g o elo).count).sum
    tops.map fun o =>
      let stats := lookupCell g o elo
      { eloRange := rangeLabel elo
        opening := o
        count := stats.count
        whiteCount := stats.whiteCount
        blackCount := stats.blackCount
        relativeCount :=
          if 0 < totalCount then (stats.count : ℚ) / (totalCount : ℚ) * 100 else 0 }

/-- The heatmap result shape. -/
structure HeatmapResult where
  data : List HeatCell
  openings : List String
  eloRanges : List String
deriving DecidableEq, Repr

def emptyHeatmap : HeatmapResult := ⟨[], [], []⟩

/-- The returned structure: cells, ranked openings, band labels. -/
def usageEmit (g : Grouped) (tops : List String) (starts : List Int) : HeatmapResult :=
  { data := heatCells g tops starts
    openings := tops
    eloRanges := starts.map rangeLabel }

/-- Grouping and emission once the ranking is fixed: bail out on an
empty ranking, derive the band range from the `elos` array
(`Math.min`/`Math.max` of the empty spread being the `none` case, where
the source returns the empty structure), group, emit. -/
def usageAssemble2 (filteredData : List GameRecord) (tops : List String) (cf : String) :
    HeatmapResult :=
  if tops.isEmpty then emptyHeatmap
  else
    match iMinMax (usageElos tops filteredData) with
    | none => emptyHeatmap
    | some (lo, hi) =>
        usageEmit (filteredData.foldl (heatStep cf tops) []) tops
          (bandStarts (100 * lo.fdiv 100) (100 * (hi + 99).fdiv 100))

/-- Bail out on an empty filtered set, rank the openings
(`sortBy`-dependent comparator), continue. -/
def usageAssemble (filteredData : List GameRecord) (cf sb : String) : HeatmapResult :=
  if filteredData.isEmpty then emptyHeatmap
  else
    usageAssemble2 filteredData
      ((List.insertionSort (usageOrder sb) (accCounts filteredData)).map Prod.fst) cf

/-- `getOpeningUsageByElo(data, filterType, timeControl, colorFilter,
sortBy)`. -/
def getOpeningUsageByElo (data : List GameRecord) (filterType timeControl : Option String)
    (colorFilter sortBy : String) : HeatmapResult :=
  usageAssemble (usageFilteredData data filterType timeControl) colorFilter sortBy

/-! ### Proof-side invariants -/

/-- The per-cell invariant of claim C10: the count splits into the two
color counts, and a one-color filter keeps the other color at zero. -/
def heatCellInv (cf : String) (c : HeatCellStats) : Prop :=
  c.count = c.whiteCount + c.blackCount ∧
  (cf = "white" → c.blackCount = 0) ∧
  (cf = "black" → c.whiteCount = 0)

/-- The cell invariant over a whole two-level dictionary. -/
def groupedInv (cf : String) (g : Grouped) : Prop :=
  ∀ p ∈ g, ∀ q ∈ p.2, heatCellInv cf q.2

/-! ### Concrete records for evaluation -/

/-- A concrete record with the given opening, winner, victory status,
rated value and ratings (the remaining fields are fixed). -/
def sampleRec (name w vs : String) (rv : RatedVal) (wr br : Int) : GameRecord :=
  { opening_name := name, winner := w, victory_status := vs, rated := rv,
    white_rating := wr, black_rating := br, turns := 40, opening_ply := 5,
    increment_code := none, created_at := none, last_move_at := none,
    time_control := none, estimated_time_control := none }

/-! ### Basic facts about the character-level operations -/

theorem mem_splitHead {c : Char} {l : List Char} (h : c ∈ splitHead l) : c ∈ l :=
  (List.takeWhile_sublist _).subset h

theorem splitHead_pred {c : Char} {l : List Char} (h : c ∈ splitHead l) :
    c ≠ ':' ∧ c ≠ '|' := by
  unfold splitHead at h
  have := List.mem_takeWhile_imp h
  simpa using this

theorem mem_trimL {c : Char} {l : List Char} (h : c ∈ trimL l) : c ∈ l := by
  unfold trimL at h
  rw [List.mem_reverse] at h
  have h2 := (List.dropWhile_sublist (l := (l.dropWhile isWsChar).reverse) (p := isWsChar)).subset h
  rw [List.mem_reverse] at h2
  exact (List.dropWhile_sublist _).subset h2

theorem stripMarker_sublist (l : List Char) : (stripMarker l).Sublist l := by
  unfold stripMarker
  split
  · rename_i ds rest hds hrest
    have h1 : rest.Sublist (l.reverse.drop (l.reverse.takeWhile Char.isDigit).length) := by
      rw [hrest]; exact List.sublist_cons_self _ _
    have h2 : rest.Sublist l.reverse := h1.trans (List.drop_sublist _ _)
    have := h2.reverse
    simpa using this
  · exact List.Sublist.refl l

theorem mem_stripMarker {c : Char} {l : List Char} (h : c ∈ stripMarker l) : c ∈ l :=
  (stripMarker_sublist l).subset h

/-- If a list contains no `'#'`, the trailing-marker strip is the
identity. -/
theorem stripMarker_of_no_hash {l : List Char} (h : '#' ∉ l) : stripMarker l = l := by
  unfold stripMarker
  split
  · rename_i ds rest hds hrest
    exfalso
    apply h
    have : '#' ∈ l.reverse.drop (l.reverse.takeWhile Char.isDigit).length := by
      rw [hrest]; exact List.mem_cons_self _ _
    have := (List.drop_sublist _ _).subset this
    simpa using this
  · rfl

/-- `takeWhile` is the identity when every element satisfies the
predicate. -/
theorem takeWhile_eq_self_of_all {p : Char → Bool} {l : List Char}
    (h : ∀ c ∈ l, p c = true) : l.takeWhile p = l := by
  induction l with
  | nil => rfl
  | cons a t ih =>
      rw [List.takeWhile_cons, h a (List.mem_cons_self _ _)]
      simp [ih fun c hc => h c (List.mem_cons_of_mem _ hc)]

theorem splitHead_idem_of_clean {l : List Char}
    (h : ∀ c ∈ l, (!(c == ':' || c == '|')) = true) : splitHead l = l :=
  takeWhile_eq_self_of_all h

theorem dropWhile_eq_self_of_head {p : Char → Bool} {l : List Char}
    (h : ∀ c, l.head? = some c → p c = false) : l.dropWhile p = l := by
  cases l with
  | nil => rfl
  | cons a t =>
      rw [List.dropWhile_cons, h a rfl]
      simp

theorem head_dropWhile_false {p : Char → Bool} {l : List Char} {c : Char}
    (h : (l.dropWhile p).head? = some c) : p c = false := by
  induction l with
  | nil => simp [List.dropWhile] at h
  | cons a t ih =>
      rw [List.dropWhile_cons] at h
      by_cases hp : p a
      · rw [if_pos hp] at h; exact ih h
      · rw [if_neg hp] at h
        simp only [List.head?_cons, Option.some.injEq] at h
        rw [← h]; exact Bool.of_not_eq_true hp

/-- Dropping trailing whitespace yields a prefix of the original list. -/
theorem dropTrailing_prefix (p : Char → Bool) (l : List Char) :
    ((l.reverse.dropWhile p).reverse).IsPrefix l := by
  have h : (l.reverse.dropWhile p).IsSuffix l.reverse := List.dropWhile_suffix p
  have := List.reverse_prefix.mpr h
  simpa using this

theorem head_of_prefix {l₁ l₂ : List Char} (h : l₁.IsPrefix l₂) {c : Char}
    (hc : l₁.head? = some c) : l₂.head? = some c := by
  obtain ⟨t, rfl⟩ := h
  cases l₁ with
  | nil => simp at hc
  | cons a s => simpa using hc

/-- The head of a trimmed list is not whitespace. -/
theorem trimL_head_not_ws {l : List Char} {c : Char} (h : (trimL l).head? = some c) :
    isWsChar c = false := by
  unfold trimL at h
  have hpre := dropTrailing_prefix isWsChar (l.dropWhile isWsChar)
  have := head_of_prefix hpre h
  exact head_dropWhile_false this

/-- `trim` is idempotent. -/
theorem trimL_idem (l : List Char) : trimL (trimL l) = trimL l := by
  have h1 : (trimL l).dropWhile isWsChar = trimL l :=
    dropWhile_eq_self_of_head fun c hc =>
      trimL_head_not_ws (l := l) hc
  show ((((trimL l).dropWhile isWsChar).reverse.dropWhile isWsChar)).reverse = trimL l
  rw [h1]
  unfold trimL
  rw [List.reverse_reverse]
  rw [List.dropWhile_idempotent]

/-! ### Idempotence of the opening-name normalizations (claim C3) -/

theorem toList_mk (l : List Char) : (String.mk l).toList = l := rfl

theorem mem_trim_split {c : Char} {L : List Char} (h : c ∈ trimL (splitHead L)) : c ∈ L :=
  mem_splitHead (mem_trimL h)

/-- Chars surviving `split(/[:|]/)[0]` then `trim` still pass the
split predicate, so a second split is the identity. -/
theorem splitHead_trim_split (L : List Char) :
    splitHead (trimL (splitHead L)) = trimL (splitHead L) := by
  apply takeWhile_eq_self_of_all
  intro c hc
  obtain ⟨h1, h2⟩ := splitHead_pred (mem_trimL hc)
  simp [h1, h2]

/-- With no `'#'` in the input, both normalization orders reduce to
trim-of-split. -/
theorem cleanNameTR_of_no_hash {s : String} (h : '#' ∉ s.toList) :
    cleanNameTR s = String.mk (trimL (splitHead s.toList)) := by
  unfold cleanNameTR
  rw [stripMarker_of_no_hash fun hm => h (mem_trim_split hm)]

theorem cleanNameRT_of_no_hash {s : String} (h : '#' ∉ s.toList) :
    cleanNameRT s = String.mk (trimL (splitHead s.toList)) := by
  unfold cleanNameRT
  rw [stripMarker_of_no_hash fun hm => h (mem_splitHead hm)]

theorem trim_split_idem_core {L : List Char} (h : '#' ∉ L) :
    String.mk (trimL (splitHead (trimL (splitHead L)))) = String.mk (trimL (splitHead L)) := by
  rw [splitHead_trim_split, trimL_idem]

/-- C3 (amended): on inputs containing no `'#'` character, both
normalization pipelines appearing in the code — split, trim, strip the
`#<digits>` marker (`getTopNOpenings` and friends) and split, strip,
trim (`getAllOpeningNames`) — are idempotent.  (Unrestricted
idempotence is refuted by `cleanName_not_idempotent`.) -/
theorem cleanName_idem_of_no_hash (s : String) (h : '#' ∉ s.toList) :
    cleanNameTR (cleanNameTR s) = cleanNameTR s ∧
    cleanNameRT (cleanNameRT s) = cleanNameRT s := by
  have hmem : ∀ c, c ∈ trimL (splitHead s.toList) → c ∈ s.toList := fun c hc =>
    mem_trim_split hc
  have hcore : '#' ∉ trimL (splitHead s.toList) := fun hm => h (hmem _ hm)
  constructor
  · rw [cleanNameTR_of_no_hash h]
    rw [cleanNameTR_of_no_hash (s := String.mk (trimL (splitHead s.toList)))
      (by rw [toList_mk]; exact hcore)]
    rw [toList_mk]
    exact trim_split_idem_core h
  · rw [cleanNameRT_of_no_hash h]
    rw [cleanNameRT_of_no_hash (s := String.mk (trimL (splitHead s.toList)))
      (by rw [toList_mk]; exact hcore)]
    rw [toList_mk]
    exact trim_split_idem_core h

/-- C3 (counterexample): neither pipeline is idempotent on all strings.
Stripping the `#<digits>` marker can expose trailing whitespace
(`"Foo #2" ↦ "Foo "` but renormalizing gives `"Foo"`), and stripping
one marker can expose another (`"Foo #1#2" ↦ "Foo #1" ↦ "Foo"`). -/
theorem cleanName_not_idempotent :
    cleanNameTR (cleanNameTR "Foo #2") ≠ cleanNameTR "Foo #2" ∧
    cleanNameRT (cleanNameRT "Foo #1#2") ≠ cleanNameRT "Foo #1#2" := by
  decide

/-- C3 (witness): the amended idempotence applies to an actual opening
name. -/
theorem cleanName_idem_witness :
    '#' ∉ "Italian Game: Giuoco Piano".toList ∧
    cleanNameTR (cleanNameTR "Italian Game: Giuoco Piano") =
      cleanNameTR "Italian Game: Giuoco Piano" ∧
    cleanNameRT (cleanNameRT "Italian Game: Giuoco Piano") =
      cleanNameRT "Italian Game: Giuoco Piano" :=
  ⟨by decide, cleanName_idem_of_no_hash "Italian Game: Giuoco Piano" (by decide)⟩

/-! ### Association-list infrastructure -/

theorem updAssoc_nil {κ α : Type} [DecidableEq κ] (k : κ) (init : α) (f : α → α) :
    updAssoc k init f [] = [(k, f init)] := rfl

theorem updAssoc_cons {κ α : Type} [DecidableEq κ] (k : κ) (init : α) (f : α → α)
    (k₂ : κ) (v : α) (rest : List (κ × α)) :
    updAssoc k init f ((k₂, v) :: rest) =
      if k₂ = k then (k₂, f v) :: rest else (k₂, v) :: updAssoc k init f rest := rfl

/-- Value-invariant preservation through one dictionary update. -/
theorem updAssoc_forall {κ α : Type} [DecidableEq κ] {P : α → Prop} {k : κ} {init : α}
    {f : α → α} {l : List (κ × α)} (hl : ∀ p ∈ l, P p.2) (hinit : P (f init))
    (hf : ∀ v, P v → P (f v)) : ∀ p ∈ updAssoc k init f l, P p.2 := by
  induction l with
  | nil =>
      intro p hp
      rw [updAssoc_nil] at hp
      rcases List.mem_singleton.mp hp with rfl
      exact hinit
  | cons q rest ih =>
      obtain ⟨k₂, v⟩ := q
      intro p hp
      rw [updAssoc_cons] at hp
      split at hp
      · rcases List.mem_cons.mp hp with rfl | hmem
        · exact hf v (hl (k₂, v) (List.mem_cons_self _ _))
        · exact hl p (List.mem_cons_of_mem _ hmem)
      · rcases List.mem_cons.mp hp with rfl | hmem
        · exact hl (k₂, v) (List.mem_cons_self _ _)
        · exact ih (fun q hq => hl q (List.mem_cons_of_mem _ hq)) p hmem

/-- The keys after an update: unchanged when the key is present,
appended otherwise. -/
theorem updAssoc_fst {κ α : Type} [DecidableEq κ] (k : κ) (init : α) (f : α → α)
    (l : List (κ × α)) :
    (updAssoc k init f l).map Prod.fst =
      if k ∈ l.map Prod.fst then l.map Prod.fst else l.map Prod.fst ++ [k] := by
  induction l with
  | nil => simp [updAssoc_nil]
  | cons q rest ih =>
      obtain ⟨k₂, v⟩ := q
      rw [updAssoc_cons]
      by_cases hk : k₂ = k
      · subst hk
        simp
      · rw [if_neg hk, List.map_cons, List.map_cons, ih]
        have : (k ∈ k₂ :: rest.map Prod.fst) ↔ (k ∈ rest.map Prod.fst) := by
          simp [List.mem_cons, fun h : k = k₂ => hk h.symm, Ne.symm hk]
        by_cases hmem : k ∈ rest.map Prod.fst
        · rw [if_pos hmem, if_pos (by simpa [this] using hmem)]
        · rw [if_neg hmem, if_neg (by simpa [this] using hmem)]
          simp

theorem mem_fst_updAssoc {κ α : Type} [DecidableEq κ] {a k : κ} {init : α} {f : α → α}
    {l : List (κ × α)} :
    a ∈ (updAssoc k init f l).map Prod.fst ↔ a = k ∨ a ∈ l.map Prod.fst := by
  rw [updAssoc_fst]
  split <;> rename_i h
  · constructor
    · exact Or.inr
    · rintro (rfl | hm)
      · exact h
      · exact hm
  · simp [or_comm]

theorem nodup_fst_updAssoc {κ α : Type} [DecidableEq κ] {k : κ} {init : α} {f : α → α}
    {l : List (κ × α)} (h : (l.map Prod.fst).Nodup) :
    ((updAssoc k init f l).map Prod.fst).Nodup := by
  rw [updAssoc_fst]
  split <;> rename_i hmem
  · exact h
  · simpa using List.Nodup.append h (List.nodup_singleton k) (by simpa using hmem)

/-- Lookup at the updated key: the update inserts or rewrites exactly
the `getD`-with-default view of the old value. -/
theorem lookupA_nil {κ α : Type} [DecidableEq κ] (k : κ) :
    lookupA (α := α) k [] = none := rfl

theorem lookupA_cons {κ α : Type} [DecidableEq κ] (k k₂ : κ) (v : α) (rest : List (κ × α)) :
    lookupA k ((k₂, v) :: rest) = if k₂ = k then some v else lookupA k rest := rfl

theorem lookupA_updAssoc_self {κ α : Type} [DecidableEq κ] (k : κ) (init : α) (f : α → α)
    (l : List (κ × α)) :
    lookupA k (updAssoc k init f l) = some (f ((lookupA k l).getD init)) := by
  induction l with
  | nil => rw [updAssoc_nil, lookupA_cons, lookupA_nil, if_pos rfl]; rfl
  | cons q rest ih =>
      obtain ⟨k₂, v⟩ := q
      rw [updAssoc_cons]
      by_cases hk : k₂ = k
      · rw [if_pos hk, lookupA_cons, lookupA_cons, if_pos hk, if_pos hk]
        rfl
      · rw [if_neg hk, lookupA_cons, lookupA_cons, if_neg hk, if_neg hk, ih]

theorem lookupA_updAssoc_other {κ α : Type} [DecidableEq κ] {a k : κ} (hne : a ≠ k)
    (init : α) (f : α → α) (l : List (κ × α)) :
    lookupA a (updAssoc k init f l) = lookupA a l := by
  induction l with
  | nil => rw [updAssoc_nil, lookupA_cons, lookupA_nil, if_neg (Ne.symm hne)]
  | cons q rest ih =>
      obtain ⟨k₂, v⟩ := q
      rw [updAssoc_cons]
      by_cases hk : k₂ = k
      · subst hk
        rw [if_pos rfl, lookupA_cons, lookupA_cons, if_neg (Ne.symm hne), if_neg (Ne.symm hne)]
      · rw [if_neg hk, lookupA_cons, lookupA_cons, ih]

/-- A successful lookup returns a stored pair. -/
theorem lookupA_mem {κ α : Type} [DecidableEq κ] {k : κ} {l : List (κ × α)} {v : α}
    (h : lookupA k l = some v) : (k, v) ∈ l := by
  induction l with
  | nil => rw [lookupA_nil] at h; exact absurd h (by simp)
  | cons q rest ih =>
      obtain ⟨k₂, w⟩ := q
      rw [lookupA_cons] at h
      split at h
      · rename_i hk
        injection h with h2
        subst hk
        subst h2
        exact List.mem_cons_self _ _
      · exact List.mem_cons_of_mem _ (ih h)

/-! ### Accumulation-fold lemmas -/

/-- Value invariant through a whole accumulation fold. -/
theorem acc_forall {α : Type} {P : α → Prop} (key : GameRecord → String) (init : α)
    (bump : GameRecord → α → α) (data : List GameRecord) (acc0 : List (String × α))
    (h0 : ∀ p ∈ acc0, P p.2)
    (hb : ∀ d ∈ data, P (bump d init) ∧ ∀ v, P v → P (bump d v)) :
    ∀ p ∈ data.foldl (fun acc d => updAssoc (key d) init (bump d) acc) acc0, P p.2 := by
  induction data generalizing acc0 with
  | nil => simpa using h0
  | cons d ds ih =>
      intro p hp
      rw [List.foldl_cons] at hp
      exact ih _
        (updAssoc_forall h0 (hb d (List.mem_cons_self _ _)).1 (hb d (List.mem_cons_self _ _)).2)
        (fun d2 hd2 => hb d2 (List.mem_cons_of_mem _ hd2)) p hp

/-- Keys accumulated by a fold: key of some record, or already in the
initial accumulator. -/
theorem acc_mem_fst {α : Type} (key : GameRecord → String) (init : α)
    (bump : GameRecord → α → α) (data : List GameRecord) (acc0 : List (String × α)) (a : String) :
    a ∈ (data.foldl (fun acc d => updAssoc (key d) init (bump d) acc) acc0).map Prod.fst ↔
      a ∈ acc0.map Prod.fst ∨ ∃ d ∈ data, key d = a := by
  induction data generalizing acc0 with
  | nil => simp
  | cons d ds ih =>
      rw [List.foldl_cons, ih]
      rw [mem_fst_updAssoc]
      constructor
      · rintro ((rfl | h0) | ⟨d2, hd2, rfl⟩)
        · exact Or.inr ⟨d, List.mem_cons_self _ _, rfl⟩
        · exact Or.inl h0
        · exact Or.inr ⟨d2, List.mem_cons_of_mem _ hd2, rfl⟩
      · rintro (h0 | ⟨d2, hd2, rfl⟩)
        · exact Or.inl (Or.inr h0)
        · rcases List.mem_cons.mp hd2 with rfl | hd2
          · exact Or.inl (Or.inl rfl)
          · exact Or.inr ⟨d2, hd2, rfl⟩

/-- Key distinctness through a whole accumulation fold. -/
theorem acc_nodup_fst {α : Type} (key : GameRecord → String) (init : α)
    (bump : GameRecord → α → α) (data : List GameRecord) (acc0 : List (String × α))
    (h0 : (acc0.map Prod.fst).Nodup) :
    ((data.foldl (fun acc d => updAssoc (key d) init (bump d) acc) acc0).map Prod.fst).Nodup := by
  induction data generalizing acc0 with
  | nil => simpa using h0
  | cons d ds ih =>
      rw [List.foldl_cons]
      exact ih _ (nodup_fst_updAssoc h0)

/-! ### Outcome percentages sum to 100 (claim C6) -/

/-- Three guarded-percentage summands over a split total. -/
theorem pct_sum3 {w b dr t : Nat} (hsum : w + b + dr = t) (ht : t ≠ 0) :
    (w : ℚ) / t * 100 + (b : ℚ) / t * 100 + (dr : ℚ) / t * 100 = 100 := by
  have htq : (t : ℚ) ≠ 0 := Nat.cast_ne_zero.mpr ht
  have hq : (w : ℚ) + b + dr = t := by exact_mod_cast congrArg (Nat.cast : Nat → ℚ) hsum
  field_simp
  linear_combination 100 * hq

/-- Four guarded-percentage summands over a split total. -/
theorem pct_sum4 {a b c d t : Nat} (hsum : a + b + c + d = t) (ht : t ≠ 0) :
    (a : ℚ) / t * 100 + (b : ℚ) / t * 100 + (c : ℚ) / t * 100 + (d : ℚ) / t * 100 = 100 := by
  have htq : (t : ℚ) ≠ 0 := Nat.cast_ne_zero.mpr ht
  have hq : (a : ℚ) + b + c + d = t := by exact_mod_cast congrArg (Nat.cast : Nat → ℚ) hsum
  field_simp
  linear_combination 100 * hq

/-- Every winner tally splits its total, provided each contributing
record's winner is one of the three expected strings. -/
theorem accWinStats_split (data : List GameRecord)
    (h : ∀ d ∈ data, d.winner = "white" ∨ d.winner = "black" ∨ d.winner = "draw") :
    ∀ p ∈ accWinStats data, p.2.whiteWins + p.2.blackWins + p.2.draws = p.2.total := by
  unfold accWinStats
  refine @acc_forall WinStats (fun s => s.whiteWins + s.blackWins + s.draws = s.total)
    (fun d => cleanNameTR d.opening_name) zeroWin (fun d => bumpWin d.winner)
    data [] (by simp) ?_
  intro d hd
  have hw := h d hd
  constructor
  · rcases hw with hw | hw | hw <;> simp [bumpWin, zeroWin, hw]
  · intro v hv
    rcases hw with hw | hw | hw <;> simp [bumpWin, hw] <;> omega

/-- Every victory-status tally splits its total, provided each
contributing record's status is one of the four expected strings. -/
theorem accResultStats_split (data : List GameRecord)
    (h : ∀ d ∈ data, d.victory_status = "mate" ∨ d.victory_status = "resign" ∨
      d.victory_status = "outoftime" ∨ d.victory_status = "draw") :
    ∀ p ∈ accResultStats data,
      p.2.mate + p.2.resign + p.2.outoftime + p.2.draw = p.2.total := by
  unfold accResultStats
  refine @acc_forall ResultStats (fun s => s.mate + s.resign + s.outoftime + s.draw = s.total)
    (fun d => cleanNameTR d.opening_name) zeroResult
    (fun d => bumpResult d.victory_status) data [] (by simp) ?_
  intro d hd
  have hw := h d hd
  constructor
  · rcases hw with hw | hw | hw | hw <;> simp [bumpResult, zeroResult, hw]
  · intro v hv
    rcases hw with hw | hw | hw | hw <;> simp [bumpResult, hw] <;> omega

/-- C6: for every bucket with a positive total returned by
`getTopNOpeningsWinners` (resp. `getTopNOpeningsWithResults`), under the
precondition that every record's winner is `white`/`black`/`draw`
(resp. victory status `mate`/`resign`/`outoftime`/`draw`), the outcome
percentages sum to exactly `100` — the model computes in `ℚ`, so the
sum is exact and in particular within the floating tolerance `1e-9`. -/
theorem outcomePcts_sum100 (data : List GameRecord) (n : Nat) :
    ((∀ d ∈ data, d.winner = "white" ∨ d.winner = "black" ∨ d.winner = "draw") →
      ∀ e ∈ getTopNOpeningsWinners data n, 0 < e.total →
        e.whiteWinPct + e.blackWinPct + e.drawPct = 100) ∧
    ((∀ d ∈ data, d.victory_status = "mate" ∨ d.victory_status = "resign" ∨
        d.victory_status = "outoftime" ∨ d.victory_status = "draw") →
      ∀ e ∈ getTopNOpeningsWithResults data n, 0 < e.total →
        e.matePct + e.resignPct + e.outoftimePct + e.drawPct = 100) := by
  constructor
  · intro h e he hpos
    unfold getTopNOpeningsWinners at he
    rw [(List.perm_insertionSort _ _).mem_iff] at he
    obtain ⟨p, hp, rfl⟩ := List.mem_map.mp he
    have hsplit := accWinStats_split data h p hp
    have ht : p.2.total ≠ 0 := by
      simpa [winnersEntry] using Nat.pos_iff_ne_zero.mp hpos
    simpa [winnersEntry] using pct_sum3 hsplit ht
  · intro h e he hpos
    unfold getTopNOpeningsWithResults at he
    rw [(List.perm_insertionSort _ _).mem_iff] at he
    obtain ⟨p, hp, rfl⟩ := List.mem_map.mp he
    have hsplit := accResultStats_split data h p hp
    have ht : p.2.total ≠ 0 := by
      simpa [resultsEntry] using Nat.pos_iff_ne_zero.mp hpos
    simpa [resultsEntry] using pct_sum4 hsplit ht

/-- C6 (witness): instantiated on two concrete games of one opening
family. -/
theorem outcomePcts_sum100_witness :
    ({ name := "Italian Game", total := 2, whiteWinPct := 50, blackWinPct := 50,
       drawPct := 0 } : WinPctEntry) ∈
      getTopNOpeningsWinners
        [sampleRec "Italian Game: Giuoco Piano" "white" "mate" (.bool true) 1000 1000,
         sampleRec "Italian Game" "black" "resign" (.bool true) 1000 1000] 10 ∧
    (50 : ℚ) + 50 + 0 = 100 :=
  ⟨by decide,
    (outcomePcts_sum100
        [sampleRec "Italian Game: Giuoco Piano" "white" "mate" (.bool true) 1000 1000,
         sampleRec "Italian Game" "black" "resign" (.bool true) 1000 1000] 10).1
      (by decide)
      { name := "Italian Game", total := 2, whiteWinPct := 50, blackWinPct := 50, drawPct := 0 }
      (by decide) (by decide)⟩

/-! ### The winners/results rankings ignore `n` (claim C9) -/

theorem winners_names_perm (data : List GameRecord) (n : Nat) :
    List.Perm ((getTopNOpeningsWinners data n).map WinPctEntry.name)
      ((accWinStats data).map Prod.fst) := by
  unfold getTopNOpeningsWinners
  have h1 := (List.perm_insertionSort winDescTotal
    ((accWinStats data).map winnersEntry)).map WinPctEntry.name
  rw [List.map_map] at h1
  exact h1

theorem results_names_perm (data : List GameRecord) (n : Nat) :
    List.Perm ((getTopNOpeningsWithResults data n).map ResultPctEntry.name)
      ((accResultStats data).map Prod.fst) := by
  unfold getTopNOpeningsWithResults
  have h1 := (List.perm_insertionSort resultDescTotal
    ((accResultStats data).map resultsEntry)).map ResultPctEntry.name
  rw [List.map_map] at h1
  exact h1

theorem accWinStats_nodup (data : List GameRecord) :
    ((accWinStats data).map Prod.fst).Nodup := by
  unfold accWinStats
  exact acc_nodup_fst _ zeroWin _ data [] (by simp)

theorem accResultStats_nodup (data : List GameRecord) :
    ((accResultStats data).map Prod.fst).Nodup := by
  unfold accResultStats
  exact acc_nodup_fst _ zeroResult _ data [] (by simp)

theorem accWinStats_mem_fst (data : List GameRecord) (o : String) :
    o ∈ (accWinStats data).map Prod.fst ↔ ∃ d ∈ data, cleanNameTR d.opening_name = o := by
  unfold accWinStats
  rw [acc_mem_fst]
  simp

theorem accResultStats_mem_fst (data : List GameRecord) (o : String) :
    o ∈ (accResultStats data).map Prod.fst ↔ ∃ d ∈ data, cleanNameTR d.opening_name = o := by
  unfold accResultStats
  rw [acc_mem_fst]
  simp

/-- C9: `getTopNOpeningsWinners` and `getTopNOpeningsWithResults`
ignore their `n` parameter entirely; for every `data` the result has
exactly one row per distinct normalized opening family occurring in
`data` (distinct names, and a name appears iff some record normalizes
to it), sorted by descending `total`, with no truncation. -/
theorem topN_ranking_ignores_n (data : List GameRecord) (n m : Nat) :
    (getTopNOpeningsWinners data n = getTopNOpeningsWinners data m ∧
     ((getTopNOpeningsWinners data n).map WinPctEntry.name).Nodup ∧
     (∀ o, o ∈ (getTopNOpeningsWinners data n).map WinPctEntry.name ↔
        ∃ d ∈ data, cleanNameTR d.opening_name = o) ∧
     List.Sorted winDescTotal (getTopNOpeningsWinners data n)) ∧
    (getTopNOpeningsWithResults data n = getTopNOpeningsWithResults data m ∧
     ((getTopNOpeningsWithResults data n).map ResultPctEntry.name).Nodup ∧
     (∀ o, o ∈ (getTopNOpeningsWithResults data n).map ResultPctEntry.name ↔
        ∃ d ∈ data, cleanNameTR d.opening_name = o) ∧
     List.Sorted resultDescTotal (getTopNOpeningsWithResults data n)) := by
  refine ⟨⟨rfl, ?_, ?_, ?_⟩, ⟨rfl, ?_, ?_, ?_⟩⟩
  · exact (winners_names_perm data n).nodup_iff.mpr (accWinStats_nodup data)
  · intro o
    rw [(winners_names_perm data n).mem_iff]
    exact accWinStats_mem_fst data o
  · exact List.sorted_insertionSort winDescTotal _
  · exact (results_names_perm data n).nodup_iff.mpr (accResultStats_nodup data)
  · intro o
    rw [(results_names_perm data n).mem_iff]
    exact accResultStats_mem_fst data o
  · exact List.sorted_insertionSort resultDescTotal _

/-! ### Zero-total buckets carry zero percentages (claim C4) -/

/-- C4: the aggregation functions are total Lean functions (hence throw
nothing); on the empty record array they return empty structures; every
dense-grid row of `getWinRateByOpeningAcrossEloRanges` with
`total = 0` has all percentages exactly `0`; and the emission step of
`getOpeningStats` sends a zero-total bucket to all-zero averages and
percentages (never `NaN`/`Infinity`: the model stays in `ℚ`). -/
theorem zero_total_zero_pct :
    (∀ (data : List GameRecord) (n : Nat), ∀ e ∈ getWinRateByOpeningAcrossEloRanges data n,
      ∀ x ∈ e.openings, x.total = 0 →
        x.whiteWinPct = 0 ∧ x.blackWinPct = 0 ∧ x.drawPct = 0) ∧
    (∀ n, getWinRateByOpeningAcrossEloRanges [] n = []) ∧
    getOpeningStats [] = [] ∧
    (∀ n, getTopNOpeningsWinners [] n = [] ∧ getTopNOpeningsWithResults [] n = []) ∧
    (∀ p : String × TurnStats, p.2.total = 0 →
      openingStatsEntry p =
        { name := p.1, averageTurns := 0, averagePly := 0, whiteWinPct := 0,
          blackWinPct := 0, drawPct := 0 }) := by
  refine ⟨?_, fun n => rfl, rfl, fun n => ⟨rfl, rfl⟩, ?_⟩
  · intro data n e he x hx hx0
    unfold getWinRateByOpeningAcrossEloRanges at he
    rcases hmm : qMinMax ((winRateFiltered data).map avgRating) with _ | ⟨lo, hi⟩
    · rw [hmm] at he
      exact absurd he (by simp)
    · rw [hmm] at he
      obtain ⟨elo, helo, rfl⟩ := List.mem_map.mp he
      unfold bandEntry at hx
      obtain ⟨name, hname, rfl⟩ := List.mem_map.mp hx
      simp only [bandRow] at hx0 ⊢
      refine ⟨?_, ?_, ?_⟩ <;> simp [safePct, hx0]
  · intro p hp
    simp [openingStatsEntry, safePct, hp]

/-- C4 (witness): a concrete data set in which the `"B"` family has no
game in the `1000-1099` band, so its dense-grid row is emitted with
`total = 0` and all-zero percentages. -/
theorem zero_total_zero_pct_witness :
    ({ range := "1000-1099",
       openings :=
        [{ name := "A", total := 1, whiteWinPct := 100, blackWinPct := 0, drawPct := 0 },
         { name := "B", total := 0, whiteWinPct := 0, blackWinPct := 0, drawPct := 0 }] } :
        RangeEntry) ∈
      getWinRateByOpeningAcrossEloRanges
        [sampleRec "A" "white" "mate" (.bool true) 1000 1000,
         sampleRec "B" "black" "mate" (.bool true) 1250 1250] 3 ∧
    ({ name := "B", total := 0, whiteWinPct := 0, blackWinPct := 0, drawPct := 0 } :
        WinPctEntry).total = 0 ∧
    (0 : ℚ) = 0 ∧ (0 : ℚ) = 0 ∧ (0 : ℚ) = 0 :=
  ⟨by decide, rfl,
    (zero_total_zero_pct.1
        [sampleRec "A" "white" "mate" (.bool true) 1000 1000,
         sampleRec "B" "black" "mate" (.bool true) 1250 1250] 3
        { range := "1000-1099",
          openings :=
            [{ name := "A", total := 1, whiteWinPct := 100, blackWinPct := 0, drawPct := 0 },
             { name := "B", total := 0, whiteWinPct := 0, blackWinPct := 0, drawPct := 0 }] }
        (by decide)
        { name := "B", total := 0, whiteWinPct := 0, blackWinPct := 0, drawPct := 0 }
        (by decide) rfl).1,
    (zero_total_zero_pct.1
        [sampleRec "A" "white" "mate" (.bool true) 1000 1000,
         sampleRec "B" "black" "mate" (.bool true) 1250 1250] 3
        { range := "1000-1099",
          openings :=
            [{ name := "A", total := 1, whiteWinPct := 100, blackWinPct := 0, drawPct := 0 },
             { name := "B", total := 0, whiteWinPct := 0, blackWinPct := 0, drawPct := 0 }] }
        (by decide)
        { name := "B", total := 0, whiteWinPct := 0, blackWinPct := 0, drawPct := 0 }
        (by decide) rfl).2.1,
    (zero_total_zero_pct.1
        [sampleRec "A" "white" "mate" (.bool true) 1000 1000,
         sampleRec "B" "black" "mate" (.bool true) 1250 1250] 3
        { range := "1000-1099",
          openings :=
            [{ name := "A", total := 1, whiteWinPct := 100, blackWinPct := 0, drawPct := 0 },
             { name := "B", total := 0, whiteWinPct := 0, blackWinPct := 0, drawPct := 0 }] }
        (by decide)
        { name := "B", total := 0, whiteWinPct := 0, blackWinPct := 0, drawPct := 0 }
        (by decide) rfl).2.2⟩

/-! ### The dense grid ignores the requested top-N (claim C1) -/

/-- C1 (failing, code bug): on two records with distinct families and
`n = 1`, every returned band row lists `2` openings, not
`min(n, families) = 1`: the source ranks the openings but never applies
`.slice(0, n)` (its own doc comment and the sibling revision in
`part_003` both promise the `n` most popular). -/
theorem winRate_ignores_requested_topN :
    (getWinRateByOpeningAcrossEloRanges
        [sampleRec "A" "white" "mate" (.bool true) 1000 1098,
         sampleRec "B" "black" "mate" (.bool true) 1000 1098] 1).map
      (fun e => e.openings.length) = [2] ∧
    (2 : Nat) ≠ min 1 2 := by
  constructor
  · decide
  · decide

/-! ### Empty input flows into `Math.min`/`Math.max` (claim C2) -/

/-- C2 (failing, code bug): on the empty record set `getEloRange`
silently returns `{min: Infinity, max: -Infinity}` — no
`EmptyInputError`, no documented sentinel — and
`getWinRateByOpeningAcrossEloRanges` likewise lets the empty filtered
set flow into the `Math.min`/`Math.max` spreads (the infinite bounds
make its band loop run zero times, so it returns `[]`). -/
theorem getEloRange_empty_is_infinite :
    getEloRange [] = (JsNum.posInf, JsNum.negInf) ∧
    getWinRateByOpeningAcrossEloRanges [] 5 = [] :=
  ⟨rfl, rfl⟩

/-! ### `estimateTimePerGame` writes onto the input records (claim C7) -/

/-- C7 (failing, code bug): `estimateTimePerGame` writes the derived
`estimated_time_control` back onto the records of its input array (the
post-state differs from the pre-state), contradicting the
produce-fresh-records contract. -/
theorem estimateTimePerGame_mutates_input :
    estimateTimePerGame
        [{ sampleRec "A" "white" "mate" (.bool true) 1000 1000 with
            increment_code := some "10+0" }] =
      [{ sampleRec "A" "white" "mate" (.bool true) 1000 1000 with
          increment_code := some "10+0", estimated_time_control := some "Rapide" }] ∧
    estimateTimePerGame
        [{ sampleRec "A" "white" "mate" (.bool true) 1000 1000 with
            increment_code := some "10+0" }] ≠
      [{ sampleRec "A" "white" "mate" (.bool true) 1000 1000 with
          increment_code := some "10+0" }] := by
  constructor
  · decide
  · decide

/-! ### Coercion of the duck-typed `rated` field (claim C8) -/

/-- C8 (counterexample): the legacy `applyFilters` compares the raw
`rated` value with a boolean using strict equality, so a record with
`rated: "true"` (string) is excluded under *both* the `rated` and the
`casual` game-type filters, even though the boundary coercion
classifies it as rated — string-typed records are misclassified
there. -/
theorem applyFilters_misclassifies_string_rated :
    applyFilters
        { opening := "all", gameType := "rated", timeControl := "all", color := "both",
          search := "" }
        [sampleRec "A" "white" "mate" (.str "true") 1000 1000] = [] ∧
    applyFilters
        { opening := "all", gameType := "casual", timeControl := "all", color := "both",
          search := "" }
        [sampleRec "A" "white" "mate" (.str "true") 1000 1000] = [] ∧
    ratedValue (.str "true") = true := by
  refine ⟨?_, ?_, ?_⟩ <;> decide

/-- C8 (amended): in `getOpeningUsageByElo` the `rated` field *is*
coerced at the filter boundary (`true` iff the string equals `"true"`
case-insensitively, `!!` on booleans), and with `filterType = 'rated'`
every record that survives the filter coerces to rated — in particular
records with `rated` equal to boolean `false` or the strings
`"false"`/`"FALSE"` are excluded; the legacy `applyFilters` of the
older revision lacks the coercion (see the counterexample). -/
theorem usage_rated_coercion (data : List GameRecord) (tc : Option String) :
    (∀ d ∈ usageFilteredData data (some "rated") tc, ratedValue d.rated = true) ∧
    (∀ d ∈ usageFilteredData data (some "casual") tc, ratedValue d.rated = false) ∧
    ratedValue (.str "false") = false ∧ ratedValue (.str "FALSE") = false ∧
    ratedValue (.bool false) = false := by
  refine ⟨?_, ?_, by decide, by decide, rfl⟩
  · intro d hd
    unfold usageFilteredData at hd
    have hp := (List.mem_filter.mp hd).2
    unfold usagePass at hp
    simp only [Bool.not_or, Bool.and_eq_true, Bool.not_eq_true', Bool.or_eq_false_iff] at hp
    rcases hp with ⟨⟨h1, _⟩, _⟩
    simpa using h1
  · intro d hd
    unfold usageFilteredData at hd
    have hp := (List.mem_filter.mp hd).2
    unfold usagePass at hp
    simp only [Bool.not_or, Bool.and_eq_true, Bool.not_eq_true', Bool.or_eq_false_iff] at hp
    rcases hp with ⟨⟨_, h2⟩, _⟩
    simpa using h2

/-- C8 (witness): a record with `rated: "TRUE"` survives the
rated-only filter boundary and coerces to `true`, while its
`rated: "false"` companion is filtered out. -/
theorem usage_rated_coercion_witness :
    sampleRec "A" "white" "mate" (.str "TRUE") 1000 1000 ∈
      usageFilteredData
        [sampleRec "A" "white" "mate" (.str "TRUE") 1000 1000,
         sampleRec "B" "black" "mate" (.str "false") 1000 1000]
        (some "rated") none ∧
    ratedValue (RatedVal.str "TRUE") = true ∧
    usageFilteredData
        [sampleRec "A" "white" "mate" (.str "TRUE") 1000 1000,
         sampleRec "B" "black" "mate" (.str "false") 1000 1000]
        (some "rated") none =
      [sampleRec "A" "white" "mate" (.str "TRUE") 1000 1000] :=
  ⟨by decide,
    (usage_rated_coercion
        [sampleRec "A" "white" "mate" (.str "TRUE") 1000 1000,
         sampleRec "B" "black" "mate" (.str "false") 1000 1000] none).1
      (sampleRec "A" "white" "mate" (.str "TRUE") 1000 1000) (by decide),
    by decide⟩

/-! ### Heatmap cell invariants (claim C10) -/

theorem heatCellInv_zero (cf : String) : heatCellInv cf zeroCell := by
  simp [heatCellInv, zeroCell]

theorem heatCellInv_bumpWhite {cf : String} {c : HeatCellStats}
    (hcf : cf = "white" ∨ cf = "both") (h : heatCellInv cf c) :
    heatCellInv cf (bumpWhiteCell c) := by
  obtain ⟨h1, h2, h3⟩ := h
  refine ⟨by simp [bumpWhiteCell]; omega, fun hw => by simpa [bumpWhiteCell] using h2 hw, ?_⟩
  intro hb
  rcases hcf with rfl | rfl <;> exact absurd hb (by decide)

theorem heatCellInv_bumpBlack {cf : String} {c : HeatCellStats}
    (hcf : cf = "black" ∨ cf = "both") (h : heatCellInv cf c) :
    heatCellInv cf (bumpBlackCell c) := by
  obtain ⟨h1, h2, h3⟩ := h
  refine ⟨by simp [bumpBlackCell]; omega, ?_, fun hb => by simpa [bumpBlackCell] using h3 hb⟩
  intro hw
  rcases hcf with rfl | rfl <;> exact absurd hw (by decide)

theorem groupedInv_updCell {cf o : String} {r : Int} {f : HeatCellStats → HeatCellStats}
    {g : Grouped} (hg : groupedInv cf g) (hz : heatCellInv cf (f zeroCell))
    (hf : ∀ c, heatCellInv cf c → heatCellInv cf (f c)) :
    groupedInv cf (updCell g o r f) := by
  unfold updCell
  refine @updAssoc_forall String (List (Int × HeatCellStats)) _
    (fun row => ∀ q ∈ row, heatCellInv cf q.2) o [] (fun row => updAssoc r zeroCell f row) g
    hg ?_ ?_
  · intro q hq
    have hq2 : q ∈ updAssoc r zeroCell f [] := hq
    rw [updAssoc_nil] at hq2
    rcases List.mem_singleton.mp hq2 with rfl
    exact hz
  · intro row hrow
    exact @updAssoc_forall Int HeatCellStats _ (fun c => heatCellInv cf c) r zeroCell f row
      hrow hz (fun c hc => hf c hc)

theorem groupedInv_heatStepW {cf o : String} {wb : Int} {g : Grouped}
    (hg : groupedInv cf g) : groupedInv cf (heatStepW cf o wb g) := by
  unfold heatStepW
  split <;> rename_i hcf
  · exact groupedInv_updCell hg (heatCellInv_bumpWhite hcf (heatCellInv_zero cf))
      (fun c hc => heatCellInv_bumpWhite hcf hc)
  · exact hg

theorem groupedInv_heatStepB {cf o : String} {wb bb : Int} {g : Grouped}
    (hg : groupedInv cf g) : groupedInv cf (heatStepB cf o wb bb g) := by
  unfold heatStepB
  split <;> rename_i hcf
  · exact groupedInv_updCell (groupedInv_heatStepW hg)
      (heatCellInv_bumpBlack hcf (heatCellInv_zero cf))
      (fun c hc => heatCellInv_bumpBlack hcf hc)
  · exact groupedInv_heatStepW hg

theorem groupedInv_heatStep {cf : String} {tops : List String} {g : Grouped} {d : GameRecord}
    (hg : groupedInv cf g) : groupedInv cf (heatStep cf tops g d) := by
  unfold heatStep
  split
  · exact hg
  · exact groupedInv_heatStepB (groupedInv_updCell
      (groupedInv_updCell hg (heatCellInv_zero cf) (fun c hc => hc))
      (heatCellInv_zero cf) (fun c hc => hc))

theorem groupedInv_foldl (cf : String) (tops : List String) (rows : List GameRecord)
    (g0 : Grouped) (h0 : groupedInv cf g0) :
    groupedInv cf (rows.foldl (heatStep cf tops) g0) := by
  induction rows generalizing g0 with
  | nil => simpa using h0
  | cons d ds ih =>
      rw [List.foldl_cons]
      exact ih _ (groupedInv_heatStep h0)

theorem heatCellInv_lookupCell {cf : String} {g : Grouped} (hg : groupedInv cf g)
    (o : String) (r : Int) : heatCellInv cf (lookupCell g o r) := by
  unfold lookupCell
  rcases ho : lookupA o g with _ | row
  · simpa using heatCellInv_zero cf
  · rw [Option.some_bind]
    rcases hr : lookupA r row with _ | c
    · simpa using heatCellInv_zero cf
    · simpa using hg (o, row) (lookupA_mem ho) (r, c) (lookupA_mem hr)

theorem heatCells_inv {cf : String} {g : Grouped} {tops : List String} {starts : List Int}
    (hg : groupedInv cf g) :
    ∀ cell ∈ heatCells g tops starts,
      cell.count = cell.whiteCount + cell.blackCount ∧
      (cf = "white" → cell.blackCount = 0) ∧
      (cf = "black" → cell.whiteCount = 0) := by
  intro cell hcell
  unfold heatCells at hcell
  rw [List.mem_flatMap] at hcell
  obtain ⟨elo, helo, hcell⟩ := hcell
  obtain ⟨o, ho, rfl⟩ := List.mem_map.mp hcell
  have := heatCellInv_lookupCell hg o elo
  exact this

/-- C10: every heatmap cell emitted by `getOpeningUsageByElo` (for any
`colorFilter`) satisfies `count = whiteCount + blackCount`; moreover
with `colorFilter = 'white'` its `blackCount` is `0` and with
`colorFilter = 'black'` its `whiteCount` is `0`. -/
theorem heatmap_count_split (data : List GameRecord) (ft tc : Option String) (cf sb : String) :
    ∀ cell ∈ (getOpeningUsageByElo data ft tc cf sb).data,
      cell.count = cell.whiteCount + cell.blackCount ∧
      (cf = "white" → cell.blackCount = 0) ∧
      (cf = "black" → cell.whiteCount = 0) := by
  intro cell hcell
  unfold getOpeningUsageByElo usageAssemble usageAssemble2 at hcell
  split at hcell
  · exact absurd hcell (by simp [emptyHeatmap])
  · split at hcell
    · exact absurd hcell (by simp [emptyHeatmap])
    · split at hcell
      · exact absurd hcell (by simp [emptyHeatmap])
      · rename_i lo hi heq
        exact heatCells_inv (groupedInv_foldl cf _ _ [] (by simp [groupedInv])) cell hcell

/-- C10 (witness): instantiated on a concrete one-record data set whose
single emitted cell has `count = 1 = 1 + 0`. -/
theorem heatmap_count_split_witness :
    ({ eloRange := "1000-1099", opening := "A", count := 1, whiteCount := 1, blackCount := 0,
       relativeCount := 100 } : HeatCell) ∈
      (getOpeningUsageByElo [sampleRec "A" "white" "mate" (.bool true) 1000 1150]
        none none "both" "popularity").data ∧
    (1 : Nat) = 1 + 0 :=
  ⟨by decide,
    (heatmap_count_split [sampleRec "A" "white" "mate" (.bool true) 1000 1150]
      none none "both" "popularity"
      { eloRange := "1000-1099", opening := "A", count := 1, whiteCount := 1, blackCount := 0,
        relativeCount := 100 } (by decide)).1⟩

/-! ### Elo-band partition of `getWinRateByOpeningAcrossEloRanges`
(claim C5) -/

/-- C5 (counterexample): a game whose average rating is `1099.5`
(ratings 1000 and 1199) falls in *no* band: the single produced band
`1000-1099` tests `avg <= 1099`, so the per-opening totals sum to `0`
although the input has one game of a ranked family. -/
theorem winRate_band_gap_counterexample :
    (((getWinRateByOpeningAcrossEloRanges
          [sampleRec "A" "white" "mate" (.bool true) 1000 1199] 3).map
        (fun e => (e.openings.map WinPctEntry.total).sum)).sum = 0) ∧
    [sampleRec "A" "white" "mate" (.bool true) 1000 1199].length = 1 ∧
    (getWinRateByOpeningAcrossEloRanges
        [sampleRec "A" "white" "mate" (.bool true) 1000 1199] 3).map RangeEntry.range =
      ["1000-1099"] := by
  refine ⟨?_, rfl, ?_⟩ <;> decide

theorem foldl_min_le_start (l : List ℚ) (a : ℚ) : l.foldl min a ≤ a := by
  induction l generalizing a with
  | nil => exact le_refl a
  | cons x xs ih => exact le_trans (ih (min a x)) (min_le_left a x)

theorem foldl_min_le_mem (l : List ℚ) (a : ℚ) : ∀ x ∈ l, l.foldl min a ≤ x := by
  induction l generalizing a with
  | nil => intro x hx; exact absurd hx (by simp)
  | cons y ys ih =>
      intro x hx
      rcases List.mem_cons.mp hx with rfl | hx
      · exact le_trans (foldl_min_le_start ys (min a x)) (min_le_right a x)
      · exact ih (min a y) x hx

theorem le_foldl_max_start (l : List ℚ) (a : ℚ) : a ≤ l.foldl max a := by
  induction l generalizing a with
  | nil => exact le_refl a
  | cons x xs ih => exact le_trans (le_max_left a x) (ih (max a x))

theorem le_foldl_max_mem (l : List ℚ) (a : ℚ) : ∀ x ∈ l, x ≤ l.foldl max a := by
  induction l generalizing a with
  | nil => intro x hx; exact absurd hx (by simp)
  | cons y ys ih =>
      intro x hx
      rcases List.mem_cons.mp hx with rfl | hx
      · exact le_trans (le_max_right a x) (le_foldl_max_start ys (max a x))
      · exact ih (max a y) x hx

/-- The spread minimum and maximum bound every element. -/
theorem qMinMax_bounds {l : List ℚ} {lo hi : ℚ} (h : qMinMax l = some (lo, hi)) :
    ∀ x ∈ l, lo ≤ x ∧ x ≤ hi := by
  cases l with
  | nil => simp [qMinMax] at h
  | cons a xs =>
      simp only [qMinMax, Option.some.injEq, Prod.mk.injEq] at h
      obtain ⟨rfl, rfl⟩ := h
      intro x hx
      rcases List.mem_cons.mp hx with rfl | hx
      · exact ⟨foldl_min_le_start xs x, le_foldl_max_start xs x⟩
      · exact ⟨foldl_min_le_mem xs a x hx, le_foldl_max_mem xs a x hx⟩

theorem accCounts_mem_fst (data : List GameRecord) (o : String) :
    o ∈ (accCounts data).map Prod.fst ↔ ∃ d ∈ data, cleanNameTR d.opening_name = o := by
  unfold accCounts
  rw [acc_mem_fst]
  simp

theorem accCounts_nodup (data : List GameRecord) : ((accCounts data).map Prod.fst).Nodup := by
  unfold accCounts
  exact acc_nodup_fst _ 0 _ data [] (by simp)

theorem winRateTops_mem (data : List GameRecord) (o : String) :
    o ∈ winRateTops data ↔ ∃ d ∈ data, cleanNameTR d.opening_name = o := by
  unfold winRateTops
  rw [(List.perm_insertionSort countGE (accCounts data)).map Prod.fst |>.mem_iff]
  exact accCounts_mem_fst data o

theorem winRateTops_nodup (data : List GameRecord) : (winRateTops data).Nodup := by
  unfold winRateTops
  exact ((List.perm_insertionSort countGE (accCounts data)).map Prod.fst).nodup_iff.mpr
    (accCounts_nodup data)

/-- Every opening family in the data is in the (unsliced) ranking, so
the popularity pre-filter keeps every record. -/
theorem winRateFiltered_eq (data : List GameRecord) : winRateFiltered data = data := by
  unfold winRateFiltered
  apply List.filter_eq_self.mpr
  intro d hd
  rw [List.contains_iff_exists_mem_beq]
  refine ⟨cleanNameTR d.opening_name, ?_, by simp⟩
  exact (winRateTops_mem data _).mpr ⟨d, hd, rfl⟩

/-- The `total` accumulated for a key counts the records normalizing to
that key. -/
theorem accWin_total (rows : List GameRecord) (k : String) :
    ((lookupA k (accWinStats rows)).getD zeroWin).total =
      rows.countP (fun d => cleanNameTR d.opening_name == k) := by
  suffices h : ∀ (rows : List GameRecord) (acc0 : List (String × WinStats)) (k : String),
      ((lookupA k (rows.foldl
          (fun acc d => updAssoc (cleanNameTR d.opening_name) zeroWin (bumpWin d.winner) acc)
          acc0)).getD zeroWin).total =
        ((lookupA k acc0).getD zeroWin).total +
          rows.countP (fun d => cleanNameTR d.opening_name == k) by
    have h2 := h rows [] k
    rw [lookupA_nil] at h2
    simpa [accWinStats, zeroWin] using h2
  intro rows
  induction rows with
  | nil => intro acc0 k; simp
  | cons d ds ih =>
      intro acc0 k
      rw [List.foldl_cons, ih, List.countP_cons]
      by_cases hk : cleanNameTR d.opening_name = k
      · rw [← hk, lookupA_updAssoc_self]
        have hb : (bumpWin d.winner
              ((lookupA (cleanNameTR d.opening_name) acc0).getD zeroWin)).total
            = ((lookupA (cleanNameTR d.opening_name) acc0).getD zeroWin).total + 1 := rfl
        simp only [Option.getD_some, hb, beq_self_eq_true, if_true]
        omega
      · rw [lookupA_updAssoc_other (fun h => hk h.symm)]
        have hb : (cleanNameTR d.opening_name == k) = false := beq_eq_false_iff_ne.mpr hk
        rw [hb]
        simp

theorem filter_beq_singleton {l : List String} (hnd : l.Nodup) (o : String) :
    l.filter (fun x => x == o) = if o ∈ l then [o] else [] := by
  induction l with
  | nil => simp
  | cons a t ih =>
      obtain ⟨hna, hndt⟩ := List.nodup_cons.mp hnd
      by_cases ha : a = o
      · subst ha
        have ht : t.filter (fun x => x == a) = [] := by
          rw [List.filter_eq_nil_iff]
          intro x hx
          simp only [beq_iff_eq]
          rintro rfl
          exact hna hx
        simp [List.filter_cons, ht]
      · have hb : (a == o) = false := beq_eq_false_iff_ne.mpr ha
        have hmem : (o ∈ a :: t) ↔ o ∈ t := by
          rw [List.mem_cons]
          constructor
          · rintro (rfl | h)
            · exact absurd rfl ha
            · exact h
          · exact Or.inr
        rw [List.filter_cons]
        simp only [hb, Bool.false_eq_true, if_false]
        rw [ih hndt]
        by_cases ho : o ∈ t
        · rw [if_pos ho, if_pos (hmem.mpr ho)]
        · rw [if_neg ho, if_neg (fun hm => ho (hmem.mp hm))]

/-- Summing the `total` column of one band row over one opening name:
the number of in-band games of that family (zero for a name outside the
ranking). -/
theorem bandEntry_opening_sum (tops : List String) (rows : List GameRecord) (elo : Int)
    (o : String) (hnd : tops.Nodup) :
    (((bandEntry tops rows elo).openings.filter (fun x => x.name == o)).map
        WinPctEntry.total).sum =
      if o ∈ tops then
        (rows.filter (inBand elo)).countP (fun d => cleanNameTR d.opening_name == o)
      else 0 := by
  unfold bandEntry
  rw [List.filter_map]
  have hcongr : tops.filter
      ((fun x => x.name == o) ∘ bandRow (accWinStats (rows.filter (inBand elo)))) =
      tops.filter (fun x => x == o) := by
    apply List.filter_congr
    intro x hx
    rfl
  rw [hcongr, filter_beq_singleton hnd]
  by_cases ho : o ∈ tops
  · rw [if_pos ho, if_pos ho]
    have : (bandRow (accWinStats (rows.filter (inBand elo))) o).total =
        ((lookupA o (accWinStats (rows.filter (inBand elo)))).getD zeroWin).total := rfl
    simp only [List.map_cons, List.map_nil, List.sum_cons, List.sum_nil, this]
    rw [accWin_total]
    omega
  · rw [if_neg ho, if_neg ho]
    simp

/-- Membership in the visited band starts, assuming the loop bounds
differ by a multiple of the step (always the case here). -/
theorem mem_bandStarts {lo hi elo : Int} (hdvd : (100 : Int) ∣ (hi - lo)) :
    elo ∈ bandStarts lo hi ↔ ∃ i : ℕ, elo = lo + 100 * i ∧ elo < hi := by
  obtain ⟨k, hk⟩ := hdvd
  have hdiv : (hi - lo) / 100 = k := by
    rw [hk]
    exact Int.mul_ediv_cancel_left _ (by norm_num)
  unfold bandStarts
  rw [hdiv, List.mem_map]
  constructor
  · rintro ⟨i, hi2, rfl⟩
    rw [List.mem_range] at hi2
    exact ⟨i, rfl, by omega⟩
  · rintro ⟨i, rfl, hlt⟩
    refine ⟨i, ?_, rfl⟩
    rw [List.mem_range]
    omega

theorem bandStarts_nodup (lo hi : Int) : (bandStarts lo hi).Nodup := by
  unfold bandStarts
  refine List.Nodup.map ?_ (List.nodup_range _)
  intro i j h
  have h2 : lo + 100 * (i : Int) = lo + 100 * (j : Int) := h
  omega

/-- The membership test of `inBand`, unfolded. -/
theorem inBand_iff (elo : Int) (d : GameRecord) :
    inBand elo d = true ↔ (elo : ℚ) ≤ avgRating d ∧ avgRating d ≤ (elo : ℚ) + 99 := by
  unfold inBand
  exact decide_eq_true_iff

/-- Distinct visited bands are disjoint: they sit at least 100 apart
while each spans only 99. -/
theorem bands_disjoint {lo hi : Int} (hdvd : (100 : Int) ∣ (hi - lo)) :
    ∀ e1 ∈ bandStarts lo hi, ∀ e2 ∈ bandStarts lo hi, e1 ≠ e2 →
      ∀ d : GameRecord, ¬(inBand e1 d = true ∧ inBand e2 d = true) := by
  intro e1 he1 e2 he2 hne d ⟨h1, h2⟩
  obtain ⟨hl1, hr1⟩ := (inBand_iff e1 d).mp h1
  obtain ⟨hl2, hr2⟩ := (inBand_iff e2 d).mp h2
  obtain ⟨i, rfl, -⟩ := (mem_bandStarts hdvd).mp he1
  obtain ⟨j, rfl, -⟩ := (mem_bandStarts hdvd).mp he2
  have hq1 : ((lo + 100 * i : Int) : ℚ) ≤ ((lo + 100 * j : Int) : ℚ) + 99 :=
    le_trans hl1 hr2
  have hq2 : ((lo + 100 * j : Int) : ℚ) ≤ ((lo + 100 * i : Int) : ℚ) + 99 :=
    le_trans hl2 hr1
  have hi1 : (lo + 100 * i : Int) ≤ (lo + 100 * j : Int) + 99 := by exact_mod_cast hq1
  have hi2 : (lo + 100 * j : Int) ≤ (lo + 100 * i : Int) + 99 := by exact_mod_cast hq2
  have : i ≠ j := by
    rintro rfl
    exact hne rfl
  omega

/-- Counting a disjunction of disjoint predicates adds the counts. -/
theorem countP_add_or {α : Type} (l : List α) (p q : α → Bool)
    (h : ∀ a ∈ l, ¬(p a = true ∧ q a = true)) :
    l.countP p + l.countP q = l.countP (fun a => p a || q a) := by
  induction l with
  | nil => simp
  | cons a t ih =>
      rw [List.countP_cons, List.countP_cons, List.countP_cons]
      have ht := ih fun x hx => h x (List.mem_cons_of_mem _ hx)
      have ha := h a (List.mem_cons_self _ _)
      cases hp : p a <;> cases hq : q a <;> simp [hp, hq] at ha ⊢ <;> omega

/-- Summing per-band counts over pairwise-disjoint bands counts the
games lying in some band. -/
theorem sum_countP_bands (l : List GameRecord) (q : GameRecord → Bool) :
    ∀ starts : List Int, starts.Nodup →
      (∀ e1 ∈ starts, ∀ e2 ∈ starts, e1 ≠ e2 →
        ∀ d : GameRecord, ¬(inBand e1 d = true ∧ inBand e2 d = true)) →
      (starts.map fun elo => l.countP fun d => q d && inBand elo d).sum =
        l.countP fun d => q d && starts.any fun elo => inBand elo d := by
  intro starts
  induction starts with
  | nil =>
      intro _ _
      simp [List.countP_false]
  | cons e rest ih =>
      intro hnd hdisj
      obtain ⟨hne, hndr⟩ := List.nodup_cons.mp hnd
      rw [List.map_cons, List.sum_cons,
        ih hndr fun e1 h1 e2 h2 hne2 => hdisj e1 (List.mem_cons_of_mem _ h1) e2
          (List.mem_cons_of_mem _ h2) hne2]
      rw [countP_add_or l _ _ ?hdisj2]
      case hdisj2 =>
        rintro d _ ⟨hc1, hc2⟩
        obtain ⟨-, hb1⟩ := Bool.and_eq_true_iff.mp hc1
        obtain ⟨-, hb2⟩ := Bool.and_eq_true_iff.mp hc2
        obtain ⟨e2, he2, hbe2⟩ := List.any_eq_true.mp hb2
        have hnee : e ≠ e2 := by
          rintro rfl
          exact hne he2
        exact hdisj e (List.mem_cons_self _ _) e2 (List.mem_cons_of_mem _ he2) hnee d ⟨hb1, hbe2⟩
      apply List.countP_congr
      intro d _
      cases hqd : q d <;> cases hb : inBand e d <;> simp [hqd, hb, List.any_cons]

/-- The result under a successful spread: one `bandEntry` per visited
band start. -/
theorem winRate_result_eq (data : List GameRecord) (n : Nat) (lo hi : ℚ)
    (hmm : qMinMax ((winRateFiltered data).map avgRating) = some (lo, hi)) :
    getWinRateByOpeningAcrossEloRanges data n =
      (bandStarts (100 * ⌊lo / 100⌋) (100 * ⌈hi / 100⌉)).map
        (bandEntry (winRateTops data) (winRateFiltered data)) := by
  unfold getWinRateByOpeningAcrossEloRanges
  rw [hmm]

/-- A game lies in at most one visited band. -/
theorem countP_bands_le_one (starts : List Int) (hnd : starts.Nodup)
    (hdisj : ∀ e1 ∈ starts, ∀ e2 ∈ starts, e1 ≠ e2 →
      ∀ d : GameRecord, ¬(inBand e1 d = true ∧ inBand e2 d = true))
    (d : GameRecord) : starts.countP (fun elo => inBand elo d) ≤ 1 := by
  induction starts with
  | nil => simp
  | cons e rest ih =>
      obtain ⟨hne, hndr⟩ := List.nodup_cons.mp hnd
      rw [List.countP_cons]
      by_cases hb : inBand e d = true
      · have hzero : rest.countP (fun elo => inBand elo d) = 0 := by
          rw [List.countP_eq_zero]
          intro e2 he2
          intro hb2
          exact hdisj e (List.mem_cons_self _ _) e2 (List.mem_cons_of_mem _ he2)
            (fun h => hne (h ▸ he2)) d ⟨hb, hb2⟩
        rw [hzero, hb]
        simp
      · have : (inBand e d = true) = False := eq_false hb
        rw [Bool.not_eq_true] at hb
        rw [hb]
        have ihr := ih hndr fun e1 h1 e2 h2 hne2 =>
          hdisj e1 (List.mem_cons_of_mem _ h1) e2 (List.mem_cons_of_mem _ h2) hne2
        simpa using ihr

theorem avg_mem_elos {data : List GameRecord} {d : GameRecord} (hd : d ∈ data) :
    avgRating d ∈ (winRateFiltered data).map avgRating := by
  rw [winRateFiltered_eq]
  exact List.mem_map.mpr ⟨d, hd, rfl⟩

/-- Which games lie in some visited band: exactly those whose average
is below the upper loop bound and within the lower 100 points of its
own 100-band (averages of the form `k*100 + 99.5` sit in the gap
between `[k*100, k*100+99]` and `[(k+1)*100, ...]`, and an average
equal to the upper bound is never reached by the loop). -/
theorem inSomeBand_iff (data : List GameRecord) (lo hi : ℚ)
    (hmm : qMinMax ((winRateFiltered data).map avgRating) = some (lo, hi))
    (d : GameRecord) (hd : d ∈ data) :
    ((bandStarts (100 * ⌊lo / 100⌋) (100 * ⌈hi / 100⌉)).any fun elo => inBand elo d) = true ↔
      (avgRating d < ((100 * ⌈hi / 100⌉ : ℤ) : ℚ) ∧
       avgRating d ≤ ((100 * ⌊avgRating d / 100⌋ : ℤ) : ℚ) + 99) := by
  have hdvd : (100 : ℤ) ∣ (100 * ⌈hi / 100⌉ - 100 * ⌊lo / 100⌋) :=
    ⟨⌈hi / 100⌉ - ⌊lo / 100⌋, by ring⟩
  have hlo : lo ≤ avgRating d := (qMinMax_bounds hmm _ (avg_mem_elos hd)).1
  constructor
  · intro hany
    obtain ⟨elo, helo, hband⟩ := List.any_eq_true.mp hany
    obtain ⟨hl, hr⟩ := (inBand_iff elo d).mp hband
    obtain ⟨i, rfl, hlt⟩ := (mem_bandStarts hdvd).mp helo
    have hlq : ((100 * ⌊lo / 100⌋ + 100 * (i : ℤ) : ℤ) : ℚ) ≤ avgRating d := by
      exact_mod_cast hl
    have hrq : avgRating d ≤ ((100 * ⌊lo / 100⌋ + 100 * (i : ℤ) : ℤ) : ℚ) + 99 := by
      exact_mod_cast hr
    have hfloor : ⌊avgRating d / 100⌋ = ⌊lo / 100⌋ + (i : ℤ) := by
      rw [Int.floor_eq_iff]
      constructor
      · rw [le_div_iff₀ (by norm_num : (0 : ℚ) < 100)]
        push_cast at hlq ⊢
        linarith
      · rw [div_lt_iff₀ (by norm_num : (0 : ℚ) < 100)]
        push_cast at hrq ⊢
        linarith
    constructor
    · have hstep : 100 * ⌊lo / 100⌋ + 100 * (i : ℤ) + 100 ≤ 100 * ⌈hi / 100⌉ := by omega
      have : ((100 * ⌊lo / 100⌋ + 100 * (i : ℤ) + 100 : ℤ) : ℚ) ≤
          ((100 * ⌈hi / 100⌉ : ℤ) : ℚ) := by exact_mod_cast hstep
      push_cast at this hrq ⊢
      linarith
    · rw [hfloor]
      push_cast at hrq ⊢
      linarith
  · rintro ⟨h1, h2⟩
    have hfl := Int.floor_le (avgRating d / 100)
    have hb_le : ((100 * ⌊avgRating d / 100⌋ : ℤ) : ℚ) ≤ avgRating d := by
      have h3 := (le_div_iff₀ (by norm_num : (0 : ℚ) < 100)).mp hfl
      push_cast at h3 ⊢
      linarith
    have hmono : ⌊lo / 100⌋ ≤ ⌊avgRating d / 100⌋ :=
      Int.floor_mono ((div_le_div_iff_of_pos_right (by norm_num : (0 : ℚ) < 100)).mpr hlo)
    have hblt : 100 * ⌊avgRating d / 100⌋ < 100 * ⌈hi / 100⌉ := by
      have : ((100 * ⌊avgRating d / 100⌋ : ℤ) : ℚ) < ((100 * ⌈hi / 100⌉ : ℤ) : ℚ) :=
        lt_of_le_of_lt hb_le h1
      exact_mod_cast this
    refine List.any_eq_true.mpr ⟨100 * ⌊avgRating d / 100⌋, ?_, ?_⟩
    · rw [mem_bandStarts hdvd]
      refine ⟨(⌊avgRating d / 100⌋ - ⌊lo / 100⌋).toNat, by omega, by omega⟩
    · rw [inBand_iff]
      exact ⟨hb_le, by push_cast at h2 ⊢; linarith⟩

/-- C5 (amended): for every input with a non-empty filtered set (the
spread minimum and maximum exist), `getWinRateByOpeningAcrossEloRanges`
emits exactly the consecutive 100-point bands starting at
`floor(min/100)*100` and stopping below `ceil(max/100)*100`; every game
lies in at most one band — in exactly one iff its average rating is
below the upper bound and at most 99 above its own band start (so
averages of the form `k*100 + 99.5`, and an average equal to the upper
bound, lie in no band) — and for every opening name the per-band totals
sum to the number of games of that family lying in some band. -/
theorem winRate_band_partition (data : List GameRecord) (n : Nat) (lo hi : ℚ)
    (hmm : qMinMax ((winRateFiltered data).map avgRating) = some (lo, hi)) :
    ((getWinRateByOpeningAcrossEloRanges data n).map RangeEntry.range =
        (bandStarts (100 * ⌊lo / 100⌋) (100 * ⌈hi / 100⌉)).map rangeLabel) ∧
    (∀ elo : Int, elo ∈ bandStarts (100 * ⌊lo / 100⌋) (100 * ⌈hi / 100⌉) ↔
        ∃ i : ℕ, elo = 100 * ⌊lo / 100⌋ + 100 * (i : Int) ∧ elo < 100 * ⌈hi / 100⌉) ∧
    (∀ d ∈ data,
      (bandStarts (100 * ⌊lo / 100⌋) (100 * ⌈hi / 100⌉)).countP (fun elo => inBand elo d) =
        if (bandStarts (100 * ⌊lo / 100⌋) (100 * ⌈hi / 100⌉)).any (fun elo => inBand elo d)
        then 1 else 0) ∧
    (∀ d ∈ data,
      ((bandStarts (100 * ⌊lo / 100⌋) (100 * ⌈hi / 100⌉)).any fun elo => inBand elo d) = true
        ↔ (avgRating d < ((100 * ⌈hi / 100⌉ : ℤ) : ℚ) ∧
           avgRating d ≤ ((100 * ⌊avgRating d / 100⌋ : ℤ) : ℚ) + 99)) ∧
    (∀ o : String,
      ((getWinRateByOpeningAcrossEloRanges data n).map fun e =>
          ((e.openings.filter fun x => x.name == o).map WinPctEntry.total).sum).sum =
        data.countP fun d => (cleanNameTR d.opening_name == o) &&
          (bandStarts (100 * ⌊lo / 100⌋) (100 * ⌈hi / 100⌉)).any fun elo => inBand elo d) := by
  have hdvd : (100 : ℤ) ∣ (100 * ⌈hi / 100⌉ - 100 * ⌊lo / 100⌋) :=
    ⟨⌈hi / 100⌉ - ⌊lo / 100⌋, by ring⟩
  have hnd := bandStarts_nodup (100 * ⌊lo / 100⌋) (100 * ⌈hi / 100⌉)
  have hdisj := bands_disjoint hdvd
  refine ⟨?_, fun elo => mem_bandStarts hdvd, ?_, fun d hd => inSomeBand_iff data lo hi hmm d hd, ?_⟩
  · rw [winRate_result_eq data n lo hi hmm, List.map_map]
    apply List.map_congr_left
    intro elo _
    rfl
  · intro d hd
    by_cases hany :
        ((bandStarts (100 * ⌊lo / 100⌋) (100 * ⌈hi / 100⌉)).any fun elo => inBand elo d) = true
    · rw [hany, if_pos rfl]
      have hle := countP_bands_le_one _ hnd hdisj d
      obtain ⟨elo, helo, hbe⟩ := List.any_eq_true.mp hany
      have hpos : 0 < (bandStarts (100 * ⌊lo / 100⌋) (100 * ⌈hi / 100⌉)).countP
          (fun elo => inBand elo d) :=
        List.countP_pos_iff.mpr ⟨elo, helo, hbe⟩
      omega
    · rw [Bool.not_eq_true] at hany
      rw [hany]
      simp only [Bool.false_eq_true, if_false]
      rw [List.countP_eq_zero]
      intro elo helo hbe
      rw [List.any_eq_false] at hany
      exact hany elo helo hbe
  · intro o
    rw [winRate_result_eq data n lo hi hmm, List.map_map]
    have hmap : ((bandStarts (100 * ⌊lo / 100⌋) (100 * ⌈hi / 100⌉)).map
        ((fun e : RangeEntry =>
            ((e.openings.filter fun x => x.name == o).map WinPctEntry.total).sum) ∘
          bandEntry (winRateTops data) (winRateFiltered data))) =
        (bandStarts (100 * ⌊lo / 100⌋) (100 * ⌈hi / 100⌉)).map fun elo =>
          if o ∈ winRateTops data then
            ((winRateFiltered data).filter (inBand elo)).countP
              (fun d => cleanNameTR d.opening_name == o)
          else 0 := by
      apply List.map_congr_left
      intro elo _
      exact bandEntry_opening_sum (winRateTops data) (winRateFiltered data) elo o
        (winRateTops_nodup data)
    rw [hmap]
    by_cases ho : o ∈ winRateTops data
    · simp only [if_pos ho]
      rw [winRateFiltered_eq]
      have hmap2 : ((bandStarts (100 * ⌊lo / 100⌋) (100 * ⌈hi / 100⌉)).map fun elo =>
          (data.filter (inBand elo)).countP fun d => cleanNameTR d.opening_name == o) =
          (bandStarts (100 * ⌊lo / 100⌋) (100 * ⌈hi / 100⌉)).map fun elo =>
            data.countP fun d => (cleanNameTR d.opening_name == o) && inBand elo d := by
        apply List.map_congr_left
        intro elo _
        rw [List.countP_filter]
      rw [hmap2]
      exact sum_countP_bands data _ _ hnd hdisj
    · simp only [if_neg ho]
      have hzero : ∀ d ∈ data, ¬(((cleanNameTR d.opening_name == o) &&
          ((bandStarts (100 * ⌊lo / 100⌋) (100 * ⌈hi / 100⌉)).any fun elo => inBand elo d))
            = true) := by
        intro d hd hc
        obtain ⟨hb1, -⟩ := Bool.and_eq_true_iff.mp hc
        exact ho ((winRateTops_mem data o).mpr ⟨d, hd, beq_iff_eq.mp hb1⟩)
      rw [eq_comm, List.countP_eq_zero.mpr hzero]
      simp

/-- C5 (witness): one game with average rating `1049` — the spread
yields `lo = hi = 1049`, one band `1000-1099` is emitted, and the
per-band totals of family `"A"` sum to the one in-band game. -/
theorem winRate_band_partition_witness :
    qMinMax ((winRateFiltered
        [sampleRec "A" "white" "mate" (.bool true) 1000 1098]).map avgRating) =
      some (1049, 1049) ∧
    (getWinRateByOpeningAcrossEloRanges
        [sampleRec "A" "white" "mate" (.bool true) 1000 1098] 3).map RangeEntry.range =
      (bandStarts (100 * ⌊(1049 : ℚ) / 100⌋) (100 * ⌈(1049 : ℚ) / 100⌉)).map rangeLabel ∧
    ((getWinRateByOpeningAcrossEloRanges
        [sampleRec "A" "white" "mate" (.bool true) 1000 1098] 3).map fun e =>
          ((e.openings.filter fun x => x.name == "A").map WinPctEntry.total).sum).sum =
      [sampleRec "A" "white" "mate" (.bool true) 1000 1098].countP fun d =>
        (cleanNameTR d.opening_name == "A") &&
          (bandStarts (100 * ⌊(1049 : ℚ) / 100⌋) (100 * ⌈(1049 : ℚ) / 100⌉)).any fun elo =>
            inBand elo d :=
  ⟨by decide,
    (winRate_band_partition [sampleRec "A" "white" "mate" (.bool true) 1000 1098] 3
      1049 1049 (by decide)).1,
    (winRate_band_partition [sampleRec "A" "white" "mate" (.bool true) 1000 1098] 3
      1049 1049 (by decide)).2.2.2.2 "A"⟩
